import Mathlib

/-!
# Elevator control simulator: dispatch core

A shallow embedding of the class `ElevatorSimulator` of `src/script.js`:
the pending requests, the car state, the three next-floor policies
(`getNextFloorFIFO`, `getNextFloorSCAN`, `getNextFloorDirectionBased`),
the tick `moveElevator`, and the submission `addRequest`.

Conventions of the embedding.

* Floors are `Int` (the script compares and subtracts JavaScript numbers that
  are always integers here).
* `new Date()` is an input: every operation that reads the clock takes the
  current time `now : Nat`.
* The DOM is left out, except the request log `requestLog`, a list whose head
  is the newest entry (`logRequest` inserts before the first child).  The text
  of an entry is kept structured: `LogMessage.requested f` stands for
  `Floor f requested` and `LogMessage.reached f` for `Floor f reached`.
* `moveInterval` holds the period of the timer created by `setInterval`, or
  `none` when no timer is scheduled (`null` in the script).
* A JavaScript exception is an `Except.error`; the only one the modelled code can
  raise is the `TypeError` of `reduce` on an empty array.
-/

namespace ElevatorSimulator

/-! ## Data model -/

/-- The three values the script assigns to `this.direction`. -/
inductive Direction where
  | IDLE
  | UP
  | DOWN
deriving DecidableEq, Repr

/-- A pending floor call, the object built in `addRequest`. -/
structure Request where
  floor : Int
  timestamp : Nat
deriving DecidableEq, Repr

/-- Text of a log entry: `Floor f requested` or `Floor f reached`. -/
inductive LogMessage where
  | requested (floor : Int)
  | reached (floor : Int)
deriving DecidableEq, Repr

/-- One entry of the request log. -/
structure LogEntry where
  message : LogMessage
  timestamp : Nat
deriving DecidableEq, Repr

/-- Exceptions of the modelled code. -/
inductive JsError where
  | typeError
deriving DecidableEq, Repr

/-- The fields of an `ElevatorSimulator` object that the dispatch core reads or writes. -/
structure State where
  currentFloor : Int
  totalFloors : Int
  speed : Int
  algorithm : String
  requests : List Request
  isRunning : Bool
  isPaused : Bool
  direction : Direction
  targetFloor : Option Int
  moveInterval : Option Int
  requestLog : List LogEntry
deriving DecidableEq, Repr

/-- The state built by the constructor (lines 3-16). -/
def initialState : State :=
  { currentFloor := 1
    totalFloors := 10
    speed := 500
    algorithm := "fifo"
    requests := []
    isRunning := false
    isPaused := false
    direction := Direction.IDLE
    targetFloor := none
    moveInterval := none
    requestLog := [] }

/-! ## Array helpers of the script -/

/-- `Array.prototype.reduce` called without an initial value: the first element
starts the accumulator, and an empty array raises a `TypeError`. -/
def reduce (f : Request → Request → Request) : List Request → Except JsError Request
  | [] => Except.error JsError.typeError
  | r :: rs => Except.ok (rs.foldl f r)

/-- The callback of every `reduce` in the script: keep `nearest` unless `req`
is strictly nearer to `currentFloor`. -/
def nearer (currentFloor : Int) (nearest req : Request) : Request :=
  let nearestDist := |nearest.floor - currentFloor|
  let reqDist := |req.floor - currentFloor|
  if reqDist < nearestDist then req else nearest

/-- `Array.prototype.sort` with a comparator: a stable sort that puts `a`
before `b` when `cmp a b` is negative and keeps the original order when it is zero. -/
def sort (cmp : Request → Request → Int) (l : List Request) : List Request :=
  List.insertionSort (fun a b => cmp a b ≤ 0) l

/-- Comparator `(a, b) => a.floor - b.floor`. -/
def ascending (a b : Request) : Int := a.floor - b.floor

/-- Comparator `(a, b) => b.floor - a.floor`. -/
def descending (a b : Request) : Int := b.floor - a.floor

/-! ## Operations -/

/-- `logRequest(message, timestamp)` (lines 163-183): the new entry becomes the first child. -/
def logRequest (s : State) (message : LogMessage) (timestamp : Nat) : State :=
  { s with requestLog := { message := message, timestamp := timestamp } :: s.requestLog }

/-- `start()` (lines 368-382). -/
def start (s : State) : State :=
  if s.isRunning && !s.isPaused then s
  else { s with isRunning := true, isPaused := false, moveInterval := some s.speed }

/-- `addRequest(floor)` (lines 144-161). -/
def addRequest (s : State) (floor : Int) (now : Nat) : State :=
  if floor < 1 ∨ floor > s.totalFloors then s
  else if s.requests.any (fun r => decide (r.floor = floor)) then s
  else
    let request : Request := { floor := floor, timestamp := now }
    let s1 := { s with requests := s.requests ++ [request] }
    let s2 := logRequest s1 (LogMessage.requested floor) request.timestamp
    if !s2.isRunning && !s2.isPaused then start s2 else s2

/-- `getNextFloorFIFO()` (lines 200-204). -/
def getNextFloorFIFO (s : State) : Except JsError (Option Int × State) :=
  match s.requests with
  | [] => Except.ok (none, s)
  | r :: _ => Except.ok (some r.floor, s)

/-- `getNextFloorSCAN()` (lines 206-257). The result is the returned floor
(`none` for `null`) and the state with the direction the call leaves behind. -/
def getNextFloorSCAN (s : State) : Except JsError (Option Int × State) :=
  if s.requests.length = 0 then Except.ok (none, s)
  else
    -- If elevator is idle, determine direction based on nearest request
    let idleStep : Except JsError State :=
      if s.direction = Direction.IDLE then
        match reduce (nearer s.currentFloor) s.requests with
        | Except.error e => Except.error e
        | Except.ok nearestRequest =>
          Except.ok { s with direction :=
            if nearestRequest.floor > s.currentFloor then Direction.UP else Direction.DOWN }
      else Except.ok s
    match idleStep with
    | Except.error e => Except.error e
    | Except.ok s1 =>
      -- Find requests in current direction
      let requestsInDirection :=
        if s1.direction = Direction.UP then
          sort ascending (s1.requests.filter (fun r => decide (r.floor > s1.currentFloor)))
        else
          sort descending (s1.requests.filter (fun r => decide (r.floor < s1.currentFloor)))
      match requestsInDirection with
      | r :: _ => Except.ok (some r.floor, s1)
      | [] =>
        -- No requests in current direction - reverse
        let s2 := { s1 with direction :=
          if s1.direction = Direction.UP then Direction.DOWN else Direction.UP }
        let opposite :=
          if s2.direction = Direction.UP then
            sort ascending (s2.requests.filter (fun r => decide (r.floor > s2.currentFloor)))
          else
            sort descending (s2.requests.filter (fun r => decide (r.floor < s2.currentFloor)))
        match opposite with
        | r :: _ => Except.ok (some r.floor, s2)
        | [] =>
          -- Fallback to nearest request
          match reduce (nearer s2.currentFloor) s2.requests with
          | Except.error e => Except.error e
          | Except.ok nearest => Except.ok (some nearest.floor, s2)

/-- `getNextFloorDirectionBased()` (lines 259-316). -/
def getNextFloorDirectionBased (s : State) : Except JsError (Option Int × State) :=
  if s.requests.length = 0 then Except.ok (none, s)
  else if s.direction = Direction.IDLE then
    -- If idle, move to nearest request
    match reduce (nearer s.currentFloor) s.requests with
    | Except.error e => Except.error e
    | Except.ok nearestRequest =>
      Except.ok (some nearestRequest.floor, { s with direction :=
        if nearestRequest.floor > s.currentFloor then Direction.UP else Direction.DOWN })
  else
    -- Check for requests ahead in current direction
    let requestsAhead :=
      if s.direction = Direction.UP then
        sort ascending (s.requests.filter (fun r => decide (r.floor > s.currentFloor)))
      else
        sort descending (s.requests.filter (fun r => decide (r.floor < s.currentFloor)))
    match requestsAhead with
    | r :: _ => Except.ok (some r.floor, s)
    | [] =>
      -- No requests ahead - reverse direction
      let s2 := { s with direction :=
        if s.direction = Direction.UP then Direction.DOWN else Direction.UP }
      let opposite :=
        if s2.direction = Direction.UP then
          sort ascending (s2.requests.filter (fun r => decide (r.floor > s2.currentFloor)))
        else
          sort descending (s2.requests.filter (fun r => decide (r.floor < s2.currentFloor)))
      match opposite with
      | r :: _ => Except.ok (some r.floor, s2)
      | [] =>
        -- If no requests in new direction, go to any remaining request
        if s2.requests.length > 0 then
          match reduce (nearer s2.currentFloor) s2.requests with
          | Except.error e => Except.error e
          | Except.ok nearest =>
            Except.ok (some nearest.floor, { s2 with direction :=
              if nearest.floor > s2.currentFloor then Direction.UP else Direction.DOWN })
        else Except.ok (none, s2)

/-- `getNextFloor()` (lines 185-198). -/
def getNextFloor (s : State) : Except JsError (Option Int × State) :=
  if s.requests.length = 0 then Except.ok (none, s)
  else if s.algorithm = "fifo" then getNextFloorFIFO s
  else if s.algorithm = "scan" then getNextFloorSCAN s
  else if s.algorithm = "direction-based" then getNextFloorDirectionBased s
  else getNextFloorFIFO s

/-- The block "Move towards target" of `moveElevator` (lines 355-365). -/
def moveTowardsTarget (s : State) : State :=
  match s.targetFloor with
  | some t =>
    if s.currentFloor < t then { s with currentFloor := s.currentFloor + 1 }
    else if s.currentFloor > t then { s with currentFloor := s.currentFloor - 1 }
    else s
  | none => s

/-- `moveElevator()` (lines 318-366), one tick. -/
def moveElevator (s : State) (now : Nat) : Except JsError State :=
  if s.isPaused then Except.ok s
  else if s.targetFloor = none ∨ s.targetFloor = some s.currentFloor then
    -- Remove completed request
    let s1 :=
      match s.targetFloor with
      | some t =>
        { logRequest { s with requests := s.requests.filter (fun r => decide (r.floor ≠ t)) }
            (LogMessage.reached t) now with targetFloor := none }
      | none => s
    -- Get next target
    match getNextFloor s1 with
    | Except.error e => Except.error e
    | Except.ok (none, s2) =>
      -- No more requests
      Except.ok { s2 with direction := Direction.IDLE, isRunning := false }
    | Except.ok (some nextFloor, s2) =>
      let s3 := { s2 with targetFloor := some nextFloor }
      -- Set direction
      let s4 := { s3 with direction :=
        if nextFloor > s3.currentFloor then Direction.UP
        else if nextFloor < s3.currentFloor then Direction.DOWN
        else Direction.IDLE }
      Except.ok (moveTowardsTarget s4)
  else Except.ok (moveTowardsTarget s)

/-- `pause()` (lines 384-392). -/
def pause (s : State) : State :=
  { s with isPaused := true, moveInterval := none }

/-- `reset()` (lines 394-410). -/
def reset (s : State) : State :=
  { s with
    isRunning := false
    isPaused := false
    currentFloor := 1
    requests := []
    targetFloor := none
    direction := Direction.IDLE
    moveInterval := none
    requestLog := [] }

/-- `applyBasicSettings()` (lines 412-420). -/
def applyBasicSettings (s : State) : State :=
  reset { s with totalFloors := 10, speed := 500 }

/-- `applyAdvancedSettings()` (lines 422-453). The two arguments are the results
of the two `parseInt` calls, `none` standing for `NaN` (every comparison with
`NaN` is false). -/
def applyAdvancedSettings (s : State) (newFloorCount newSpeed : Option Int) : State :=
  let s1 :=
    match newFloorCount with
    | some n => if n ≥ 3 ∧ n ≤ 20 then { s with totalFloors := n } else s
    | none => s
  let s2 :=
    match newSpeed with
    | some p =>
      if p ≥ 100 ∧ p ≤ 2000 then
        { s1 with speed := p, moveInterval := s1.moveInterval.map fun _ => p }
      else s1
    | none => s1
  -- Adjust current floor if needed
  let s3 :=
    if s2.currentFloor > s2.totalFloors then { s2 with currentFloor := s2.totalFloors } else s2
  -- Remove requests for floors that no longer exist
  { s3 with requests := s3.requests.filter (fun r => decide (r.floor ≤ s3.totalFloors)) }

/-! ## Sequences of calls -/

/-- The calls the object receives from its event listeners and its timer. -/
inductive Call where
  | addRequest (floor : Int) (now : Nat)
  | tick (now : Nat)
  | start
  | pause
  | reset
  | selectAlgorithm (value : String)
  | applyBasicSettings
  | applyAdvancedSettings (newFloorCount newSpeed : Option Int)
deriving DecidableEq, Repr

/-- One call applied to a state. -/
def step (s : State) : Call → Except JsError State
  | Call.addRequest floor now => Except.ok (addRequest s floor now)
  | Call.tick now => moveElevator s now
  | Call.start => Except.ok (start s)
  | Call.pause => Except.ok (pause s)
  | Call.reset => Except.ok (reset s)
  | Call.selectAlgorithm value => Except.ok { s with algorithm := value }
  | Call.applyBasicSettings => Except.ok (applyBasicSettings s)
  | Call.applyAdvancedSettings newFloorCount newSpeed =>
    Except.ok (applyAdvancedSettings s newFloorCount newSpeed)

/-- A sequence of calls applied from left to right; an exception ends the run. -/
def run (s : State) : List Call → Except JsError State
  | [] => Except.ok s
  | c :: cs =>
    match step s c with
    | Except.error e => Except.error e
    | Except.ok s1 => run s1 cs

/-- The call is a submission or a tick. -/
def Call.isSubmitOrTick : Call → Bool
  | Call.addRequest _ _ => true
  | Call.tick _ => true
  | _ => false

/-- Floors of the accepted submissions, oldest first, as recorded in the log. -/
def requestedFloors (log : List LogEntry) : List Int :=
  log.reverse.filterMap fun e =>
    match e.message with
    | LogMessage.requested f => some f
    | LogMessage.reached _ => none

/-- Floors reported as reached, oldest first, as recorded in the log. -/
def reachedFloors (log : List LogEntry) : List Int :=
  log.reverse.filterMap fun e =>
    match e.message with
    | LogMessage.reached f => some f
    | LogMessage.requested _ => none

/-! ## Specification vocabulary, blocks of the tick, and sample states -/

/-- `FirstNearest c l m`: `m` is the first request of `l`, in arrival order,
whose distance to floor `c` is minimal. -/
def FirstNearest (c : Int) (l : List Request) (m : Request) : Prop :=
  ∃ pre post, l = pre ++ m :: post ∧
    (∀ x ∈ pre, |m.floor - c| < |x.floor - c|) ∧
    (∀ x ∈ post, |m.floor - c| ≤ |x.floor - c|)

/-- The requests strictly ahead of the car when it travels in direction `d`,
nearest first: the array `requestsInDirection` of the script. -/
def ahead (d : Direction) (s : State) : List Request :=
  if d = Direction.UP then
    sort ascending (s.requests.filter (fun r => decide (r.floor > s.currentFloor)))
  else
    sort descending (s.requests.filter (fun r => decide (r.floor < s.currentFloor)))

/-- The reversal `this.direction === 'UP' ? 'DOWN' : 'UP'`. -/
def reversed (d : Direction) : Direction :=
  if d = Direction.UP then Direction.DOWN else Direction.UP

/-- The direction chosen from a nearest request: `UP` when it is above the car. -/
def towards (s : State) (m : Request) : Direction :=
  if m.floor > s.currentFloor then Direction.UP else Direction.DOWN

/-- `NearestAbove c l f`: `f` is the smallest pending floor strictly above `c`. -/
def NearestAbove (c : Int) (l : List Request) (f : Int) : Prop :=
  (∃ r ∈ l, r.floor = f) ∧ f > c ∧ ∀ r ∈ l, r.floor > c → f ≤ r.floor

/-- `NearestBelow c l f`: `f` is the largest pending floor strictly below `c`. -/
def NearestBelow (c : Int) (l : List Request) (f : Int) : Prop :=
  (∃ r ∈ l, r.floor = f) ∧ f < c ∧ ∀ r ∈ l, r.floor < c → r.floor ≤ f

/-- Car at floor 5, idle, with floors 5 and 3 pending (in that order). -/
def idleAtFive : State :=
  { initialState with
    algorithm := "scan"
    currentFloor := 5
    requests := [{ floor := 5, timestamp := 0 }, { floor := 3, timestamp := 1 }] }

/-- Car at floor 1, idle, with floors 3 and 7 pending. -/
def idleAtOne : State :=
  { initialState with
    algorithm := "scan"
    requests := [{ floor := 3, timestamp := 0 }, { floor := 7, timestamp := 1 }] }

/-- Car at floor 5 going up, with floor 2 pending. -/
def upAtFive : State :=
  { initialState with
    algorithm := "scan"
    currentFloor := 5
    direction := Direction.UP
    requests := [{ floor := 2, timestamp := 0 }] }

/-- Car at floor 5, idle, with floors 5 and 7 pending (in that order). -/
def idleAtFiveBelowSeven : State :=
  { initialState with
    algorithm := "direction-based"
    currentFloor := 5
    requests := [{ floor := 5, timestamp := 0 }, { floor := 7, timestamp := 1 }] }

/-- Car at floor 5, idle, with floor 5 alone pending. -/
def idleAloneAtFive : State :=
  { initialState with
    algorithm := "direction-based"
    currentFloor := 5
    requests := [{ floor := 5, timestamp := 0 }] }

/-- `SameFloorAs s a b`: the two policy results `a` and `b` are both a floor,
the same one, each with a state that differs from `s` in `direction` only, and
the two directions differ only when no pending floor is strictly above or
strictly below the car. -/
def SameFloorAs (s : State) (a b : Except JsError (Option Int × State)) : Prop :=
  ∃ f d1 d2,
    a = Except.ok (some f, { s with direction := d1 }) ∧
    b = Except.ok (some f, { s with direction := d2 }) ∧
    (d1 ≠ d2 → ∀ r ∈ s.requests, ¬ r.floor > s.currentFloor ∧ ¬ r.floor < s.currentFloor)

/-- `AnswersPending s res`: the policy result `res` is not an exception, is
`null` exactly when no request is pending in `s`, is otherwise the floor of a
pending request, and carries a state that differs from `s` in `direction` only. -/
def AnswersPending (s : State) (res : Except JsError (Option Int × State)) : Prop :=
  ∃ r d, res = Except.ok (r, { s with direction := d }) ∧
    (r = none ↔ s.requests = []) ∧
    ∀ f, r = some f → ∃ q ∈ s.requests, q.floor = f

/-- The block "Remove completed request" of `moveElevator` (lines 323-328). -/
def arrive (s : State) (now : Nat) : State :=
  match s.targetFloor with
  | some t =>
    { logRequest { s with requests := s.requests.filter (fun r => decide (r.floor ≠ t)) }
        (LogMessage.reached t) now with targetFloor := none }
  | none => s

/-- The direction `moveElevator` sets for a new target (lines 343-350). -/
def directionTo (s : State) (nextFloor : Int) : Direction :=
  if nextFloor > s.currentFloor then Direction.UP
  else if nextFloor < s.currentFloor then Direction.DOWN
  else Direction.IDLE

/-- The rest of `moveElevator` once the completed request is removed (lines 330-365). -/
def dispatch (s1 : State) : Except JsError State :=
  match getNextFloor s1 with
  | Except.error e => Except.error e
  | Except.ok (none, s2) =>
    Except.ok { s2 with direction := Direction.IDLE, isRunning := false }
  | Except.ok (some nextFloor, s2) =>
    Except.ok (moveTowardsTarget
      { s2 with targetFloor := some nextFloor, direction := directionTo s2 nextFloor })

/-- Car at floor 3 with target 3, floors 3 and 6 pending, running under FIFO. -/
def arrivedAtThree : State :=
  { initialState with
    currentFloor := 3
    targetFloor := some 3
    isRunning := true
    direction := Direction.UP
    requests := [{ floor := 3, timestamp := 0 }, { floor := 6, timestamp := 1 }] }

/-- Car at floor 3 with target 3 and only floor 3 pending. -/
def lastStopAtThree : State :=
  { initialState with
    currentFloor := 3
    targetFloor := some 3
    isRunning := true
    direction := Direction.UP
    requests := [{ floor := 3, timestamp := 0 }] }

/-- The value of `targetFloor` after each call of a run, in order; the trace
stops at an exception. -/
def targetTrace (s : State) : List Call → List (Option Int)
  | [] => []
  | c :: cs =>
    match step s c with
    | Except.error _ => []
    | Except.ok s1 => s1.targetFloor :: targetTrace s1 cs

/-- Submissions of floors 5, 2, 8 followed by fourteen ticks. -/
def fiveTwoEight : List Call :=
  [Call.addRequest 5 0, Call.addRequest 2 1, Call.addRequest 8 2] ++
    (List.range 14).map fun n => Call.tick (n + 3)

/-- What holds along a run of submissions and ticks under FIFO: the car is not
paused, pending floors are distinct, a target is the floor of the oldest
pending request, and the accepted floors are the reached floors followed by the
pending ones. -/
structure FifoInv (s : State) : Prop where
  fifo : s.algorithm = "fifo"
  notPaused : s.isPaused = false
  nodup : (s.requests.map Request.floor).Nodup
  target : ∀ t, s.targetFloor = some t → ∃ r rs, s.requests = r :: rs ∧ r.floor = t
  log : requestedFloors s.requestLog =
    reachedFloors s.requestLog ++ s.requests.map Request.floor

/-! ## Reachable states, invariants and the waiting time -/

/-- The call changes the configuration (`applyBasicSettings`, `applyAdvancedSettings`). -/
def Call.isReconfiguration : Call → Bool
  | Call.applyBasicSettings => true
  | Call.applyAdvancedSettings _ _ => true
  | _ => false

/-- States the object can be in after some sequence of calls on the constructor state. -/
def Reachable (s : State) : Prop :=
  ∃ calls, run initialState calls = Except.ok s

/-- States reached without any reconfiguration call: submissions, ticks, start,
pause, reset and changes of policy only. -/
def ReachableFixed (s : State) : Prop :=
  ∃ calls, (∀ c ∈ calls, Call.isReconfiguration c = false) ∧
    run initialState calls = Except.ok s

/-- The floor one step from `c` towards `t` (lines 357-361). -/
def stepTowards (c t : Int) : Int :=
  if c < t then c + 1 else if c > t then c - 1 else c

/-- The car is at rest: nothing pending, no target, direction `IDLE`, not running. -/
def Idle (s : State) : Prop :=
  s.requests = [] ∧ s.targetFloor = none ∧ s.direction = Direction.IDLE ∧ s.isRunning = false

/-- Invariant kept by every call: a car that is neither running nor paused is
at rest, pending floors are distinct, and pending floors lie in the shaft. -/
structure CoreInv (s : State) : Prop where
  rest : s.isRunning = false → s.isPaused = false →
    s.requests = [] ∧ s.targetFloor = none ∧ s.direction = Direction.IDLE
  nodup : (s.requests.map Request.floor).Nodup
  inRange : ∀ r ∈ s.requests, 1 ≤ r.floor ∧ r.floor ≤ s.totalFloors

/-- Invariant kept by every call that is not a reconfiguration: the car is in
the shaft, pending floors lie in the shaft, and a target is pending. -/
structure ShaftInv (s : State) : Prop where
  floorInRange : 1 ≤ s.currentFloor ∧ s.currentFloor ≤ s.totalFloors
  inRange : ∀ r ∈ s.requests, 1 ≤ r.floor ∧ r.floor ≤ s.totalFloors
  targetPending : ∀ t, s.targetFloor = some t → ∃ r ∈ s.requests, r.floor = t

/-- An upper bound on the number of ticks an unpaused car still needs to come to rest. -/
def ticksLeft (s : State) : Nat :=
  match s.targetFloor with
  | some t =>
    (t - s.currentFloor).natAbs + 1 + (s.requests.length - 1) * s.totalFloors.toNat
  | none =>
    match s.requests with
    | [] => if s.isRunning = false ∧ s.direction = Direction.IDLE then 0 else 1
    | _ :: rs => (rs.length + 1) * s.totalFloors.toNat + 1

/-- Ticks at the given times. -/
def ticksAt (times : List Nat) : List Call :=
  times.map Call.tick

/-- Floor 9 is requested and targeted, then the shaft is cut to five floors. -/
def cutBelowTarget : List Call :=
  [Call.addRequest 9 0, Call.tick 1, Call.applyAdvancedSettings (some 5) none]

/-- The run `cutBelowTarget` followed by four ticks. -/
def cutBelowTargetThenTick : List Call :=
  cutBelowTarget ++ ticksAt [2, 3, 4, 5]

/-- The car goes to floor 8 and rests, floor 8 is requested again and targeted
on the spot, then the shaft is cut to five floors. -/
def cutBelowIdleCar : List Call :=
  [Call.addRequest 8 0] ++ ticksAt [1, 2, 3, 4, 5, 6, 7, 8] ++
    [Call.addRequest 8 9, Call.tick 10, Call.applyAdvancedSettings (some 5) none]

/-- Ten floors, car at floor 8, floors 4 and 9 pending. -/
def tenFloorsAtEight : State :=
  { initialState with
    currentFloor := 8
    requests := [{ floor := 4, timestamp := 0 }, { floor := 9, timestamp := 1 }] }

/-- Car at floor 2 on its way up to floor 6, running under FIFO. -/
def onTheWayUp : State :=
  { initialState with
    currentFloor := 2
    targetFloor := some 6
    isRunning := true
    direction := Direction.UP
    requests := [{ floor := 6, timestamp := 0 }] }

/-- Car at floor 4, running under SCAN and going down, no target, only floor 4 pending. -/
def loneRequestAtFour : State :=
  { initialState with
    algorithm := "scan"
    currentFloor := 4
    isRunning := true
    direction := Direction.DOWN
    requests := [{ floor := 4, timestamp := 0 }] }

/-! ## Submission -/

/-- A request for `floor` is pending exactly when the `some` test of `addRequest` succeeds. -/
lemma any_floor_iff (l : List Request) (floor : Int) :
    l.any (fun r => decide (r.floor = floor)) = true ↔ ∃ r ∈ l, r.floor = floor := by
  simp [List.any_eq_true]

/-- What an accepted submission returns, as one record update. -/
lemma addRequest_of_accepted (s : State) (floor : Int) (now : Nat)
    (h1 : 1 ≤ floor) (h2 : floor ≤ s.totalFloors) (h3 : ∀ r ∈ s.requests, r.floor ≠ floor) :
    addRequest s floor now =
      if (!s.isRunning && !s.isPaused) = true then
        start (logRequest { s with requests := s.requests ++ [⟨floor, now⟩] }
          (LogMessage.requested floor) now)
      else
        logRequest { s with requests := s.requests ++ [⟨floor, now⟩] }
          (LogMessage.requested floor) now := by
  have hr : ¬ (floor < 1 ∨ floor > s.totalFloors) := by omega
  have ha : ¬ (s.requests.any (fun r => decide (r.floor = floor)) = true) := by
    rw [any_floor_iff]
    rintro ⟨r, hr, hf⟩
    exact h3 r hr hf
  unfold addRequest
  rw [if_neg hr, if_neg ha]
  rfl

/-- A rejected submission returns the state it was given. -/
lemma addRequest_of_rejected (s : State) (floor : Int) (now : Nat)
    (h : floor < 1 ∨ floor > s.totalFloors ∨ ∃ r ∈ s.requests, r.floor = floor) :
    addRequest s floor now = s := by
  unfold addRequest
  by_cases hr : floor < 1 ∨ floor > s.totalFloors
  · rw [if_pos hr]
  · rw [if_neg hr]
    have hex : ∃ r ∈ s.requests, r.floor = floor := by
      rcases h with h | h | h
      · exact absurd (Or.inl h) hr
      · exact absurd (Or.inr h) hr
      · exact h
    rw [if_pos ((any_floor_iff _ _).mpr hex)]

/-- C1. A rejected submission changes nothing: when `floor < 1`, or
`floor > totalFloors`, or a request for `floor` is already pending,
`addRequest` returns the state it was given, with the same pending requests in
the same order, the same car fields and the same log (no entry is emitted).
Floor `0` and floor `totalFloors + 1` are rejected in every state. -/
theorem addRequest_rejected_no_change (s : State) (floor : Int) (now : Nat)
    (h : floor < 1 ∨ floor > s.totalFloors ∨ ∃ r ∈ s.requests, r.floor = floor) :
    addRequest s floor now = s ∧
      (∀ (s0 : State) (t : Nat), addRequest s0 0 t = s0) ∧
      (∀ (s0 : State) (t : Nat), addRequest s0 (s0.totalFloors + 1) t = s0) := by
  refine ⟨addRequest_of_rejected s floor now h, ?_, ?_⟩
  · intro s0 t
    exact addRequest_of_rejected s0 0 t (Or.inl (by decide))
  · intro s0 t
    exact addRequest_of_rejected s0 (s0.totalFloors + 1) t (Or.inr (Or.inl (by omega)))

/-- Instance of C1: floor 4 is already pending at floor 1 of a ten-floor shaft. -/
theorem addRequest_rejected_no_change_witness :
    ((4 : Int) < 1 ∨ (4 : Int) > ({ initialState with requests := [⟨4, 7⟩] } : State).totalFloors ∨
        ∃ r ∈ ({ initialState with requests := [⟨4, 7⟩] } : State).requests, r.floor = 4) ∧
      (addRequest { initialState with requests := [⟨4, 7⟩] } 4 9 =
          { initialState with requests := [⟨4, 7⟩] } ∧
        (∀ (s0 : State) (t : Nat), addRequest s0 0 t = s0) ∧
        (∀ (s0 : State) (t : Nat), addRequest s0 (s0.totalFloors + 1) t = s0)) :=
  ⟨Or.inr (Or.inr ⟨⟨4, 7⟩, by simp [initialState], rfl⟩),
    addRequest_rejected_no_change { initialState with requests := [⟨4, 7⟩] } 4 9
      (Or.inr (Or.inr ⟨⟨4, 7⟩, by simp [initialState], rfl⟩))⟩

/-- C2. An accepted submission appends and auto-starts: for a floor in
`[1, totalFloors]` that is not pending, `addRequest` makes the pending list the
old list followed by one new request for that floor, puts exactly one
`requested` entry in front of the old log, leaves `currentFloor`, `direction`,
`targetFloor` (and the configuration) unchanged, and sets `isRunning = true`,
`isPaused = false` when the car was neither running nor paused; when the car was
running or paused both flags keep their values. -/
theorem addRequest_accepted_appends (s : State) (floor : Int) (now : Nat)
    (h1 : 1 ≤ floor) (h2 : floor ≤ s.totalFloors) (h3 : ∀ r ∈ s.requests, r.floor ≠ floor) :
    (addRequest s floor now).requests = s.requests ++ [{ floor := floor, timestamp := now }] ∧
      (addRequest s floor now).requestLog =
        { message := LogMessage.requested floor, timestamp := now } :: s.requestLog ∧
      (addRequest s floor now).currentFloor = s.currentFloor ∧
      (addRequest s floor now).direction = s.direction ∧
      (addRequest s floor now).targetFloor = s.targetFloor ∧
      (addRequest s floor now).totalFloors = s.totalFloors ∧
      (addRequest s floor now).algorithm = s.algorithm ∧
      (s.isRunning = false ∧ s.isPaused = false →
        (addRequest s floor now).isRunning = true ∧ (addRequest s floor now).isPaused = false) ∧
      (s.isRunning = true ∨ s.isPaused = true →
        (addRequest s floor now).isRunning = s.isRunning ∧
          (addRequest s floor now).isPaused = s.isPaused) := by
  rw [addRequest_of_accepted s floor now h1 h2 h3]
  cases hrun : s.isRunning <;> cases hp : s.isPaused <;> simp [start, logRequest, hrun, hp]

/-- Instance of C2: floor 5 submitted to the initial state. -/
theorem addRequest_accepted_appends_witness :
    ((1 : Int) ≤ 5 ∧ (5 : Int) ≤ initialState.totalFloors ∧
        ∀ r ∈ initialState.requests, r.floor ≠ 5) ∧
      (addRequest initialState 5 3).requests = [{ floor := 5, timestamp := 3 }] ∧
      (addRequest initialState 5 3).requestLog =
        [{ message := LogMessage.requested 5, timestamp := 3 }] ∧
      (addRequest initialState 5 3).isRunning = true ∧
      (addRequest initialState 5 3).isPaused = false :=
  have h := addRequest_accepted_appends initialState 5 3 (by decide) (by decide)
    (by simp [initialState])
  ⟨⟨by decide, by decide, by simp [initialState]⟩, h.1, h.2.1, h.2.2.2.2.2.2.2.1 ⟨rfl, rfl⟩⟩

/-- C3. Submission is idempotent: calling `addRequest` for the same floor twice
in a row gives the state of the first call alone (same pending list, same car
state, same log), so the second call is always rejected and the pending list
changes at most once. -/
theorem addRequest_idempotent (s : State) (floor : Int) (t1 t2 : Nat) :
    addRequest (addRequest s floor t1) floor t2 = addRequest s floor t1 := by
  by_cases h : floor < 1 ∨ floor > s.totalFloors ∨ ∃ r ∈ s.requests, r.floor = floor
  · rw [addRequest_of_rejected s floor t1 h, addRequest_of_rejected s floor t2 h]
  · have h1 : 1 ≤ floor := by
      by_contra hc
      exact h (Or.inl (by omega))
    have h2 : floor ≤ s.totalFloors := by
      by_contra hc
      exact h (Or.inr (Or.inl (by omega)))
    have h3 : ∀ r ∈ s.requests, r.floor ≠ floor := by
      intro r hr hf
      exact h (Or.inr (Or.inr ⟨r, hr, hf⟩))
    apply addRequest_of_rejected
    right
    right
    refine ⟨{ floor := floor, timestamp := t1 }, ?_, rfl⟩
    rw [addRequest_of_accepted s floor t1 h1 h2 h3]
    split <;> simp [start, logRequest, apply_ite State.requests]

/-! ## The array helpers -/

/-- The head of a sorted array is one of the elements and precedes all of them. -/
lemma sort_head (cmp : Request → Request → Int)
    (htot : ∀ a b, cmp a b ≤ 0 ∨ cmp b a ≤ 0)
    (htr : ∀ a b c, cmp a b ≤ 0 → cmp b c ≤ 0 → cmp a c ≤ 0)
    {l : List Request} {x : Request} {t : List Request} (h : sort cmp l = x :: t) :
    x ∈ l ∧ ∀ y ∈ l, cmp x y ≤ 0 := by
  have hs : List.Sorted (fun a b => cmp a b ≤ 0) (sort cmp l) := by
    haveI : IsTotal Request (fun a b => cmp a b ≤ 0) := ⟨htot⟩
    haveI : IsTrans Request (fun a b => cmp a b ≤ 0) := ⟨htr⟩
    exact List.sorted_insertionSort _ l
  have hp : (sort cmp l).Perm l := List.perm_insertionSort _ l
  rw [h] at hs hp
  refine ⟨hp.subset (List.mem_cons_self _ _), ?_⟩
  intro y hy
  have hy2 : y ∈ x :: t := hp.symm.subset hy
  rcases List.mem_cons.mp hy2 with rfl | hyt
  · rcases htot y y with h | h <;> exact h
  · exact List.rel_of_sorted_cons hs y hyt

/-- Sorting an array gives the empty array only for the empty array. -/
lemma sort_eq_nil (cmp : Request → Request → Int) {l : List Request} (h : sort cmp l = []) :
    l = [] := by
  have hlen : (sort cmp l).length = l.length := List.length_insertionSort _ l
  rw [h] at hlen
  exact List.length_eq_zero.mp hlen.symm

/-- Head of the ascending sort: the smallest floor. -/
lemma sort_ascending_head {l : List Request} {x : Request} {t : List Request}
    (h : sort ascending l = x :: t) : x ∈ l ∧ ∀ y ∈ l, x.floor ≤ y.floor := by
  have hh := sort_head ascending (by intro a b; unfold ascending; omega)
    (by intro a b c; unfold ascending; omega) h
  refine ⟨hh.1, fun y hy => ?_⟩
  have := hh.2 y hy
  unfold ascending at this
  omega

/-- Head of the descending sort: the largest floor. -/
lemma sort_descending_head {l : List Request} {x : Request} {t : List Request}
    (h : sort descending l = x :: t) : x ∈ l ∧ ∀ y ∈ l, y.floor ≤ x.floor := by
  have hh := sort_head descending (by intro a b; unfold descending; omega)
    (by intro a b c; unfold descending; omega) h
  refine ⟨hh.1, fun y hy => ?_⟩
  have := hh.2 y hy
  unfold descending at this
  omega

/-- The first nearest request is a request of the list. -/
lemma FirstNearest.mem {c : Int} {l : List Request} {m : Request} (h : FirstNearest c l m) :
    m ∈ l := by
  obtain ⟨pre, post, rfl, -, -⟩ := h
  simp

/-- No request of the list is nearer than the first nearest one. -/
lemma FirstNearest.le {c : Int} {l : List Request} {m : Request} (h : FirstNearest c l m)
    {x : Request} (hx : x ∈ l) : |m.floor - c| ≤ |x.floor - c| := by
  obtain ⟨pre, post, rfl, h1, h2⟩ := h
  rcases List.mem_append.mp hx with hx | hx
  · exact le_of_lt (h1 x hx)
  · rcases List.mem_cons.mp hx with rfl | hx
    · exact le_refl _
    · exact h2 x hx

/-- The left fold with `nearer` ends on the first nearest request. -/
lemma foldl_nearer_firstNearest (c : Int) (r : Request) (rs : List Request) :
    FirstNearest c (r :: rs) (rs.foldl (nearer c) r) := by
  induction rs using List.reverseRecOn with
  | nil => exact ⟨[], [], rfl, by simp, by simp⟩
  | append_singleton rs x ih =>
    rw [List.foldl_append]
    obtain ⟨pre, post, hl, h1, h2⟩ := ih
    simp only [List.foldl_cons, List.foldl_nil]
    generalize List.foldl (nearer c) r rs = m at hl h1 h2 ⊢
    unfold nearer
    simp only
    split
    · rename_i hlt
      refine ⟨r :: rs, [], by simp, ?_, by simp⟩
      intro y hy
      rw [hl] at hy
      rcases List.mem_append.mp hy with hy | hy
      · exact lt_trans hlt (h1 y hy)
      · rcases List.mem_cons.mp hy with rfl | hy
        · exact hlt
        · exact lt_of_lt_of_le hlt (h2 y hy)
    · rename_i hlt
      refine ⟨pre, post ++ [x], ?_, h1, ?_⟩
      · rw [← List.cons_append, hl]
        simp
      · intro y hy
        rcases List.mem_append.mp hy with hy | hy
        · exact h2 y hy
        · rw [List.mem_singleton.mp hy]
          exact not_lt.mp hlt

/-- On a non-empty array `reduce` with `nearer` does not throw and returns the
first nearest request. -/
lemma reduce_nearer_ok (c : Int) {l : List Request} (h : l ≠ []) :
    ∃ m, reduce (nearer c) l = Except.ok m ∧ FirstNearest c l m := by
  cases l with
  | nil => exact absurd rfl h
  | cons r rs => exact ⟨rs.foldl (nearer c) r, rfl, foldl_nearer_firstNearest c r rs⟩

/-! ## The policies -/

lemma ahead_setDirection (d e : Direction) (s : State) :
    ahead d { s with direction := e } = ahead d s := rfl

/-- `getNextFloorSCAN` once the car has a direction. -/
lemma getNextFloorSCAN_moving (s : State) (hne : s.requests ≠ [])
    (hd : s.direction ≠ Direction.IDLE) :
    getNextFloorSCAN s =
      match ahead s.direction s with
      | r :: _ => Except.ok (some r.floor, s)
      | [] =>
        match ahead (reversed s.direction) s with
        | r :: _ => Except.ok (some r.floor, { s with direction := reversed s.direction })
        | [] =>
          match reduce (nearer s.currentFloor) s.requests with
          | Except.error e => Except.error e
          | Except.ok nearest =>
            Except.ok (some nearest.floor, { s with direction := reversed s.direction }) := by
  have hlen : ¬ s.requests.length = 0 := fun h => hne (List.length_eq_zero.mp h)
  unfold getNextFloorSCAN
  simp only [if_neg hlen, if_neg hd]
  rfl

/-- `getNextFloorSCAN` from idle: the nearest request fixes the direction and
the sweep goes on from there. -/
lemma getNextFloorSCAN_idle (s : State) (hne : s.requests ≠ [])
    (hd : s.direction = Direction.IDLE) :
    ∃ m, reduce (nearer s.currentFloor) s.requests = Except.ok m ∧
      FirstNearest s.currentFloor s.requests m ∧
      getNextFloorSCAN s = getNextFloorSCAN { s with direction := towards s m } := by
  obtain ⟨m, hm, hfirst⟩ := reduce_nearer_ok s.currentFloor hne
  refine ⟨m, hm, hfirst, ?_⟩
  have hlen : ¬ s.requests.length = 0 := fun h => hne (List.length_eq_zero.mp h)
  have hd2 : ¬ towards s m = Direction.IDLE := by
    unfold towards
    split <;> simp
  conv_lhs => unfold getNextFloorSCAN
  conv_rhs => unfold getNextFloorSCAN
  simp only [if_neg hlen, if_pos hd, hm, if_neg hd2]
  rfl

/-- `getNextFloorDirectionBased` once the car has a direction. -/
lemma getNextFloorDirectionBased_moving (s : State) (hne : s.requests ≠ [])
    (hd : s.direction ≠ Direction.IDLE) :
    getNextFloorDirectionBased s =
      match ahead s.direction s with
      | r :: _ => Except.ok (some r.floor, s)
      | [] =>
        match ahead (reversed s.direction) s with
        | r :: _ => Except.ok (some r.floor, { s with direction := reversed s.direction })
        | [] =>
          match reduce (nearer s.currentFloor) s.requests with
          | Except.error e => Except.error e
          | Except.ok nearest =>
            Except.ok (some nearest.floor, { s with direction := towards s nearest }) := by
  have hlen : ¬ s.requests.length = 0 := fun h => hne (List.length_eq_zero.mp h)
  have hpos : s.requests.length > 0 := Nat.pos_of_ne_zero hlen
  unfold getNextFloorDirectionBased
  simp only [if_neg hlen, if_neg hd, if_pos hpos]
  rfl

/-- `getNextFloorDirectionBased` from idle goes to the nearest request. -/
lemma getNextFloorDirectionBased_idle (s : State) (hne : s.requests ≠ [])
    (hd : s.direction = Direction.IDLE) :
    ∃ m, reduce (nearer s.currentFloor) s.requests = Except.ok m ∧
      FirstNearest s.currentFloor s.requests m ∧
      getNextFloorDirectionBased s =
        Except.ok (some m.floor, { s with direction := towards s m }) := by
  obtain ⟨m, hm, hfirst⟩ := reduce_nearer_ok s.currentFloor hne
  refine ⟨m, hm, hfirst, ?_⟩
  have hlen : ¬ s.requests.length = 0 := fun h => hne (List.length_eq_zero.mp h)
  unfold getNextFloorDirectionBased
  simp only [if_neg hlen, if_pos hd, hm]
  rfl

/-- Head of the upward list: the smallest pending floor above the car. -/
lemma ahead_up_cons {s : State} {x : Request} {t : List Request}
    (h : ahead Direction.UP s = x :: t) :
    x ∈ s.requests ∧ x.floor > s.currentFloor ∧
      ∀ y ∈ s.requests, y.floor > s.currentFloor → x.floor ≤ y.floor := by
  have h2 : sort ascending (s.requests.filter (fun r => decide (r.floor > s.currentFloor)))
      = x :: t := h
  obtain ⟨hx, hmin⟩ := sort_ascending_head h2
  rw [List.mem_filter] at hx
  refine ⟨hx.1, by simpa using hx.2, fun y hy hgt => hmin y ?_⟩
  rw [List.mem_filter]
  exact ⟨hy, by simpa using hgt⟩

/-- An empty upward list: no pending floor is above the car. -/
lemma ahead_up_nil {s : State} (h : ahead Direction.UP s = []) :
    ∀ y ∈ s.requests, y.floor ≤ s.currentFloor := by
  have h2 : sort ascending (s.requests.filter (fun r => decide (r.floor > s.currentFloor)))
      = [] := h
  have h3 := sort_eq_nil ascending h2
  intro y hy
  by_contra hc
  have : y ∈ s.requests.filter (fun r => decide (r.floor > s.currentFloor)) := by
    rw [List.mem_filter]
    exact ⟨hy, by simpa using hc⟩
  rw [h3] at this
  exact absurd this (List.not_mem_nil y)

/-- Head of the downward list: the largest pending floor below the car. -/
lemma ahead_down_cons {s : State} {x : Request} {t : List Request}
    (h : ahead Direction.DOWN s = x :: t) :
    x ∈ s.requests ∧ x.floor < s.currentFloor ∧
      ∀ y ∈ s.requests, y.floor < s.currentFloor → y.floor ≤ x.floor := by
  have h2 : sort descending (s.requests.filter (fun r => decide (r.floor < s.currentFloor)))
      = x :: t := h
  obtain ⟨hx, hmax⟩ := sort_descending_head h2
  rw [List.mem_filter] at hx
  refine ⟨hx.1, by simpa using hx.2, fun y hy hlt => hmax y ?_⟩
  rw [List.mem_filter]
  exact ⟨hy, by simpa using hlt⟩

/-- An empty downward list: no pending floor is below the car. -/
lemma ahead_down_nil {s : State} (h : ahead Direction.DOWN s = []) :
    ∀ y ∈ s.requests, s.currentFloor ≤ y.floor := by
  have h2 : sort descending (s.requests.filter (fun r => decide (r.floor < s.currentFloor)))
      = [] := h
  have h3 := sort_eq_nil descending h2
  intro y hy
  by_contra hc
  have : y ∈ s.requests.filter (fun r => decide (r.floor < s.currentFloor)) := by
    rw [List.mem_filter]
    exact ⟨hy, by simpa using hc⟩
  rw [h3] at this
  exact absurd this (List.not_mem_nil y)

/-- A non-empty upward list exists as soon as one pending floor is above the car. -/
lemma ahead_up_ne_nil {s : State} {r : Request} (hr : r ∈ s.requests)
    (hgt : r.floor > s.currentFloor) : ∃ x t, ahead Direction.UP s = x :: t := by
  cases h : ahead Direction.UP s with
  | nil =>
    have := ahead_up_nil h r hr
    omega
  | cons x t => exact ⟨x, t, rfl⟩

/-- A non-empty downward list exists as soon as one pending floor is below the car. -/
lemma ahead_down_ne_nil {s : State} {r : Request} (hr : r ∈ s.requests)
    (hlt : r.floor < s.currentFloor) : ∃ x t, ahead Direction.DOWN s = x :: t := by
  cases h : ahead Direction.DOWN s with
  | nil =>
    have := ahead_down_nil h r hr
    omega
  | cons x t => exact ⟨x, t, rfl⟩

/-- Every member of a list `ahead` is a pending request. -/
lemma ahead_head_mem {d : Direction} {s : State} {x : Request} {t : List Request}
    (h : ahead d s = x :: t) : x ∈ s.requests := by
  by_cases hd : d = Direction.UP
  · subst hd
    exact (ahead_up_cons h).1
  · have h2 : sort descending (s.requests.filter (fun r => decide (r.floor < s.currentFloor)))
        = x :: t := by
      unfold ahead at h
      rwa [if_neg hd] at h
    have := (sort_descending_head h2).1
    exact (List.mem_filter.mp this).1

/-- The shape of every result of `getNextFloorSCAN` with a direction: some
pending floor, and a state that differs from the old one in `direction` only. -/
lemma getNextFloorSCAN_moving_total (s : State) (hne : s.requests ≠ [])
    (hd : s.direction ≠ Direction.IDLE) :
    ∃ x d, x ∈ s.requests ∧
      getNextFloorSCAN s = Except.ok (some x.floor, { s with direction := d }) := by
  rw [getNextFloorSCAN_moving s hne hd]
  cases h1 : ahead s.direction s with
  | cons x t => exact ⟨x, s.direction, ahead_head_mem h1, rfl⟩
  | nil =>
    cases h2 : ahead (reversed s.direction) s with
    | cons x t => exact ⟨x, reversed s.direction, ahead_head_mem h2, rfl⟩
    | nil =>
      obtain ⟨m, hm, hfirst⟩ := reduce_nearer_ok s.currentFloor hne
      exact ⟨m, reversed s.direction, hfirst.mem, by simp only [hm]⟩

/-- The shape of every result of `getNextFloorSCAN` on a non-empty list. -/
lemma getNextFloorSCAN_total (s : State) (hne : s.requests ≠ []) :
    ∃ x d, x ∈ s.requests ∧
      getNextFloorSCAN s = Except.ok (some x.floor, { s with direction := d }) := by
  by_cases hd : s.direction = Direction.IDLE
  · obtain ⟨m, -, -, heq⟩ := getNextFloorSCAN_idle s hne hd
    have hd2 : ({ s with direction := towards s m } : State).direction ≠ Direction.IDLE := by
      show towards s m ≠ Direction.IDLE
      unfold towards
      split <;> simp
    obtain ⟨x, d, hx, hres⟩ :=
      getNextFloorSCAN_moving_total { s with direction := towards s m } hne hd2
    exact ⟨x, d, hx, by rw [heq, hres]⟩
  · exact getNextFloorSCAN_moving_total s hne hd

/-- The shape of every result of `getNextFloorDirectionBased` on a non-empty list. -/
lemma getNextFloorDirectionBased_total (s : State) (hne : s.requests ≠ []) :
    ∃ x d, x ∈ s.requests ∧
      getNextFloorDirectionBased s = Except.ok (some x.floor, { s with direction := d }) := by
  by_cases hd : s.direction = Direction.IDLE
  · obtain ⟨m, -, hfirst, heq⟩ := getNextFloorDirectionBased_idle s hne hd
    exact ⟨m, towards s m, hfirst.mem, heq⟩
  · rw [getNextFloorDirectionBased_moving s hne hd]
    cases h1 : ahead s.direction s with
    | cons x t => exact ⟨x, s.direction, ahead_head_mem h1, rfl⟩
    | nil =>
      cases h2 : ahead (reversed s.direction) s with
      | cons x t => exact ⟨x, reversed s.direction, ahead_head_mem h2, rfl⟩
      | nil =>
        obtain ⟨m, hm, hfirst⟩ := reduce_nearer_ok s.currentFloor hne
        exact ⟨m, towards s m, hfirst.mem, by simp only [hm]⟩

/-- The shape of every result of `getNextFloorFIFO` on a non-empty list. -/
lemma getNextFloorFIFO_total (s : State) (hne : s.requests ≠ []) :
    ∃ x t, s.requests = x :: t ∧ getNextFloorFIFO s = Except.ok (some x.floor, s) := by
  unfold getNextFloorFIFO
  cases h : s.requests with
  | nil => exact absurd h hne
  | cons x t => exact ⟨x, t, rfl, rfl⟩

/-- The shape of every result of `getNextFloor` on a non-empty list. -/
lemma getNextFloor_total (s : State) (hne : s.requests ≠ []) :
    ∃ x d, x ∈ s.requests ∧
      getNextFloor s = Except.ok (some x.floor, { s with direction := d }) := by
  have hlen : ¬ s.requests.length = 0 := fun h => hne (List.length_eq_zero.mp h)
  have hfifo : ∃ x d, x ∈ s.requests ∧
      getNextFloorFIFO s = Except.ok (some x.floor, { s with direction := d }) := by
    obtain ⟨x, t, hx, hres⟩ := getNextFloorFIFO_total s hne
    exact ⟨x, s.direction, by rw [hx]; exact List.mem_cons_self _ _, hres⟩
  unfold getNextFloor
  rw [if_neg hlen]
  split
  · exact hfifo
  · split
    · exact getNextFloorSCAN_total s hne
    · split
      · exact getNextFloorDirectionBased_total s hne
      · exact hfifo

/-- On an empty list `getNextFloor` answers `null` and changes nothing. -/
lemma getNextFloor_nil (s : State) (h : s.requests = []) :
    getNextFloor s = Except.ok (none, s) := by
  unfold getNextFloor
  rw [if_pos (by rw [h]; rfl)]

/-- SCAN with direction `UP` and a pending floor above: the nearest one above, direction kept. -/
lemma scan_up_ahead (s : State) (hd : s.direction = Direction.UP)
    (h : ∃ r ∈ s.requests, r.floor > s.currentFloor) :
    ∃ f, NearestAbove s.currentFloor s.requests f ∧
      getNextFloorSCAN s = Except.ok (some f, s) := by
  obtain ⟨r, hr, hgt⟩ := h
  have hne : s.requests ≠ [] := List.ne_nil_of_mem hr
  obtain ⟨x, t, hx⟩ := ahead_up_ne_nil hr hgt
  obtain ⟨hmem, hxgt, hmin⟩ := ahead_up_cons hx
  refine ⟨x.floor, ⟨⟨x, hmem, rfl⟩, hxgt, hmin⟩, ?_⟩
  rw [getNextFloorSCAN_moving s hne (by rw [hd]; decide), hd, hx]

/-- SCAN with direction `DOWN` and a pending floor below: the nearest one below, direction kept. -/
lemma scan_down_ahead (s : State) (hd : s.direction = Direction.DOWN)
    (h : ∃ r ∈ s.requests, r.floor < s.currentFloor) :
    ∃ f, NearestBelow s.currentFloor s.requests f ∧
      getNextFloorSCAN s = Except.ok (some f, s) := by
  obtain ⟨r, hr, hlt⟩ := h
  have hne : s.requests ≠ [] := List.ne_nil_of_mem hr
  obtain ⟨x, t, hx⟩ := ahead_down_ne_nil hr hlt
  obtain ⟨hmem, hxlt, hmax⟩ := ahead_down_cons hx
  refine ⟨x.floor, ⟨⟨x, hmem, rfl⟩, hxlt, hmax⟩, ?_⟩
  rw [getNextFloorSCAN_moving s hne (by rw [hd]; decide), hd, hx]

/-- The upward list is empty when no pending floor is above the car. -/
lemma ahead_up_eq_nil {s : State} (h : ∀ r ∈ s.requests, ¬ r.floor > s.currentFloor) :
    ahead Direction.UP s = [] := by
  cases hx : ahead Direction.UP s with
  | nil => rfl
  | cons x t =>
    obtain ⟨hmem, hgt, -⟩ := ahead_up_cons hx
    exact absurd hgt (h x hmem)

/-- The downward list is empty when no pending floor is below the car. -/
lemma ahead_down_eq_nil {s : State} (h : ∀ r ∈ s.requests, ¬ r.floor < s.currentFloor) :
    ahead Direction.DOWN s = [] := by
  cases hx : ahead Direction.DOWN s with
  | nil => rfl
  | cons x t =>
    obtain ⟨hmem, hlt, -⟩ := ahead_down_cons hx
    exact absurd hlt (h x hmem)

/-- SCAN with direction `UP`, nothing above and a pending floor below: the
nearest one below, direction reversed to `DOWN`. -/
lemma scan_up_reverse (s : State) (hd : s.direction = Direction.UP)
    (h0 : ∀ r ∈ s.requests, ¬ r.floor > s.currentFloor)
    (h : ∃ r ∈ s.requests, r.floor < s.currentFloor) :
    ∃ f, NearestBelow s.currentFloor s.requests f ∧
      getNextFloorSCAN s = Except.ok (some f, { s with direction := Direction.DOWN }) := by
  obtain ⟨r, hr, hlt⟩ := h
  have hne : s.requests ≠ [] := List.ne_nil_of_mem hr
  obtain ⟨x, t, hx⟩ := ahead_down_ne_nil hr hlt
  obtain ⟨hmem, hxlt, hmax⟩ := ahead_down_cons hx
  refine ⟨x.floor, ⟨⟨x, hmem, rfl⟩, hxlt, hmax⟩, ?_⟩
  have hrev : reversed Direction.UP = Direction.DOWN := rfl
  rw [getNextFloorSCAN_moving s hne (by rw [hd]; decide), hd, ahead_up_eq_nil h0, hrev, hx]

/-- SCAN with direction `DOWN`, nothing below and a pending floor above: the
nearest one above, direction reversed to `UP`. -/
lemma scan_down_reverse (s : State) (hd : s.direction = Direction.DOWN)
    (h0 : ∀ r ∈ s.requests, ¬ r.floor < s.currentFloor)
    (h : ∃ r ∈ s.requests, r.floor > s.currentFloor) :
    ∃ f, NearestAbove s.currentFloor s.requests f ∧
      getNextFloorSCAN s = Except.ok (some f, { s with direction := Direction.UP }) := by
  obtain ⟨r, hr, hgt⟩ := h
  have hne : s.requests ≠ [] := List.ne_nil_of_mem hr
  obtain ⟨x, t, hx⟩ := ahead_up_ne_nil hr hgt
  obtain ⟨hmem, hxgt, hmin⟩ := ahead_up_cons hx
  refine ⟨x.floor, ⟨⟨x, hmem, rfl⟩, hxgt, hmin⟩, ?_⟩
  have hrev : reversed Direction.DOWN = Direction.UP := rfl
  rw [getNextFloorSCAN_moving s hne (by rw [hd]; decide), hd, ahead_down_eq_nil h0, hrev, hx]

/-- C6. SCAN keeps sweeping and reverses only when nothing is ahead. With
direction `UP` it returns the smallest pending floor above the car and keeps
`UP` when some pending floor is above; otherwise, when some pending floor is
below, it returns the largest pending floor below and leaves `DOWN`. With
direction `DOWN` the mirror image holds. At floor 5 going up with only floor 2
pending it returns 2 and leaves `DOWN`. -/
theorem getNextFloorSCAN_sweep (s : State) :
    (s.direction = Direction.UP →
      ((∃ r ∈ s.requests, r.floor > s.currentFloor) →
        ∃ f, NearestAbove s.currentFloor s.requests f ∧
          getNextFloorSCAN s = Except.ok (some f, s)) ∧
      ((∀ r ∈ s.requests, ¬ r.floor > s.currentFloor) →
        (∃ r ∈ s.requests, r.floor < s.currentFloor) →
        ∃ f, NearestBelow s.currentFloor s.requests f ∧
          getNextFloorSCAN s = Except.ok (some f, { s with direction := Direction.DOWN }))) ∧
    (s.direction = Direction.DOWN →
      ((∃ r ∈ s.requests, r.floor < s.currentFloor) →
        ∃ f, NearestBelow s.currentFloor s.requests f ∧
          getNextFloorSCAN s = Except.ok (some f, s)) ∧
      ((∀ r ∈ s.requests, ¬ r.floor < s.currentFloor) →
        (∃ r ∈ s.requests, r.floor > s.currentFloor) →
        ∃ f, NearestAbove s.currentFloor s.requests f ∧
          getNextFloorSCAN s = Except.ok (some f, { s with direction := Direction.UP }))) ∧
    getNextFloorSCAN upAtFive =
      Except.ok (some 2, { upAtFive with direction := Direction.DOWN }) := by
  refine ⟨fun hd => ⟨scan_up_ahead s hd, scan_up_reverse s hd⟩,
    fun hd => ⟨scan_down_ahead s hd, scan_down_reverse s hd⟩, ?_⟩
  rfl

/-- Instance of C6: at floor 5 going up with only floor 2 pending, nothing is
above and floor 2 is below, so the reversal branch applies. -/
theorem getNextFloorSCAN_sweep_witness :
    (upAtFive.direction = Direction.UP ∧
        (∀ r ∈ upAtFive.requests, ¬ r.floor > upAtFive.currentFloor) ∧
        ∃ r ∈ upAtFive.requests, r.floor < upAtFive.currentFloor) ∧
      ∃ f, NearestBelow upAtFive.currentFloor upAtFive.requests f ∧
        getNextFloorSCAN upAtFive =
          Except.ok (some f, { upAtFive with direction := Direction.DOWN }) :=
  ⟨⟨rfl, by simp [upAtFive, initialState], ⟨⟨2, 0⟩, by simp [upAtFive], by decide⟩⟩,
    ((getNextFloorSCAN_sweep upAtFive).1 rfl).2 (by simp [upAtFive, initialState])
      ⟨⟨2, 0⟩, by simp [upAtFive], by decide⟩⟩

/-- SCAN from idle with no request for the floor the car is on: the first
nearest request, and the direction that leads to it. -/
lemma scan_idle_nearest (s : State) (hd : s.direction = Direction.IDLE)
    (hne : s.requests ≠ []) (hcf : ∀ r ∈ s.requests, r.floor ≠ s.currentFloor) :
    ∃ m, reduce (nearer s.currentFloor) s.requests = Except.ok m ∧
      FirstNearest s.currentFloor s.requests m ∧
      getNextFloorSCAN s = Except.ok (some m.floor, { s with direction := towards s m }) := by
  obtain ⟨m, hm, hfirst, heq⟩ := getNextFloorSCAN_idle s hne hd
  refine ⟨m, hm, hfirst, ?_⟩
  rw [heq]
  by_cases hgt : m.floor > s.currentFloor
  · have ht : towards s m = Direction.UP := by
      unfold towards
      rw [if_pos hgt]
    rw [ht]
    obtain ⟨f, ⟨⟨r, hr, hrf⟩, hfgt, hmin⟩, hres⟩ :=
      scan_up_ahead { s with direction := Direction.UP } rfl ⟨m, hfirst.mem, hgt⟩
    have hle : f ≤ m.floor := hmin m hfirst.mem hgt
    have hdist := hfirst.le hr
    rw [hrf] at hdist
    have hfgt2 : f > s.currentFloor := hfgt
    rw [abs_of_pos (by omega), abs_of_pos (by omega)] at hdist
    have hfm : f = m.floor := by omega
    rw [hres, hfm]
  · have hlt : m.floor < s.currentFloor := by
      have := hcf m hfirst.mem
      omega
    have ht : towards s m = Direction.DOWN := by
      unfold towards
      rw [if_neg hgt]
    rw [ht]
    obtain ⟨f, ⟨⟨r, hr, hrf⟩, hflt, hmax⟩, hres⟩ :=
      scan_down_ahead { s with direction := Direction.DOWN } rfl ⟨m, hfirst.mem, hlt⟩
    have hle : m.floor ≤ f := hmax m hfirst.mem hlt
    have hdist := hfirst.le hr
    rw [hrf] at hdist
    have hflt2 : f < s.currentFloor := hflt
    rw [abs_of_neg (by omega), abs_of_neg (by omega)] at hdist
    have hfm : f = m.floor := by omega
    rw [hres, hfm]

/-- C5, amended. SCAN from idle picks the nearest request when no request is
pending for the floor the car is on: for a non-empty pending list none of whose
floors equals `currentFloor`, `getNextFloorSCAN` called with direction `IDLE`
returns the floor of the first request, in arrival order, at minimum distance
from `currentFloor`, and leaves direction `UP` when that floor is above the car
and `DOWN` otherwise. At floor 1 with floors 3 and 7 pending it returns 3 and
leaves `UP`. -/
theorem getNextFloorSCAN_idle_nearest (s : State) (hd : s.direction = Direction.IDLE)
    (hne : s.requests ≠ []) (hcf : ∀ r ∈ s.requests, r.floor ≠ s.currentFloor) :
    (∃ m, FirstNearest s.currentFloor s.requests m ∧
      getNextFloorSCAN s = Except.ok (some m.floor, { s with direction :=
        if m.floor > s.currentFloor then Direction.UP else Direction.DOWN })) ∧
    getNextFloorSCAN idleAtOne =
      Except.ok (some 3, { idleAtOne with direction := Direction.UP }) := by
  obtain ⟨m, -, hfirst, hres⟩ := scan_idle_nearest s hd hne hcf
  exact ⟨⟨m, hfirst, hres⟩, rfl⟩

/-- Instance of C5 (amended): floor 1, idle, floors 3 and 7 pending. -/
theorem getNextFloorSCAN_idle_nearest_witness :
    (idleAtOne.direction = Direction.IDLE ∧ idleAtOne.requests ≠ [] ∧
        ∀ r ∈ idleAtOne.requests, r.floor ≠ idleAtOne.currentFloor) ∧
      ((∃ m, FirstNearest idleAtOne.currentFloor idleAtOne.requests m ∧
        getNextFloorSCAN idleAtOne = Except.ok (some m.floor, { idleAtOne with direction :=
          if m.floor > idleAtOne.currentFloor then Direction.UP else Direction.DOWN })) ∧
      getNextFloorSCAN idleAtOne =
        Except.ok (some 3, { idleAtOne with direction := Direction.UP })) :=
  ⟨⟨rfl, by simp [idleAtOne], by simp [idleAtOne, initialState]⟩,
    getNextFloorSCAN_idle_nearest idleAtOne rfl (by simp [idleAtOne])
      (by simp [idleAtOne, initialState])⟩

/-- C5 as stated fails: at floor 5, idle, with the distinct floors 5 and 3
pending, the nearest pending floor is 5 (distance 0), yet `getNextFloorSCAN`
returns 3 and leaves direction `DOWN`; no nearest request is what it returns. -/
theorem getNextFloorSCAN_idle_skips_current_floor :
    idleAtFive.direction = Direction.IDLE ∧
      idleAtFive.requests ≠ [] ∧
      (idleAtFive.requests.map Request.floor).Nodup ∧
      FirstNearest idleAtFive.currentFloor idleAtFive.requests { floor := 5, timestamp := 0 } ∧
      getNextFloorSCAN idleAtFive =
        Except.ok (some 3, { idleAtFive with direction := Direction.DOWN }) ∧
      ¬ ∃ m d, FirstNearest idleAtFive.currentFloor idleAtFive.requests m ∧
        getNextFloorSCAN idleAtFive = Except.ok (some m.floor, { idleAtFive with direction := d }) := by
  refine ⟨rfl, by simp [idleAtFive], by decide, ?_, rfl, ?_⟩
  · refine ⟨[], [{ floor := 3, timestamp := 1 }], rfl, by simp, ?_⟩
    intro x hx
    rw [List.mem_singleton.mp hx]
    decide
  · rintro ⟨m, d, hfirst, hres⟩
    have heval : getNextFloorSCAN idleAtFive =
        Except.ok (some 3, { idleAtFive with direction := Direction.DOWN }) := rfl
    rw [heval] at hres
    have hm : (3 : Int) = m.floor := by
      injection hres with h1
      injection h1 with h2 _
      injection h2
    have hle := hfirst.le (x := { floor := 5, timestamp := 0 }) (by simp [idleAtFive])
    rw [← hm] at hle
    have hcur : idleAtFive.currentFloor = 5 := rfl
    rw [hcur] at hle
    exact absurd hle (by decide)

/-- With a direction, the two policies agree on the floor, and on the direction
unless they end in the nearest-overall fallback. -/
lemma directionBased_scan_moving (s : State) (hne : s.requests ≠ [])
    (hd : s.direction ≠ Direction.IDLE) :
    SameFloorAs s (getNextFloorSCAN s) (getNextFloorDirectionBased s) := by
  rw [getNextFloorSCAN_moving s hne hd, getNextFloorDirectionBased_moving s hne hd]
  cases h1 : ahead s.direction s with
  | cons x t => exact ⟨x.floor, s.direction, s.direction, rfl, rfl, fun h => absurd rfl h⟩
  | nil =>
    cases h2 : ahead (reversed s.direction) s with
    | cons x t =>
      exact ⟨x.floor, reversed s.direction, reversed s.direction, rfl, rfl,
        fun h => absurd rfl h⟩
    | nil =>
      obtain ⟨m, hm, -⟩ := reduce_nearer_ok s.currentFloor hne
      refine ⟨m.floor, reversed s.direction, towards s m, by simp only [hm],
        by simp only [hm], ?_⟩
      intro _ r hr
      cases hdir : s.direction with
      | IDLE => exact absurd hdir hd
      | UP =>
        rw [hdir] at h1 h2
        have hup := ahead_up_nil h1 r hr
        have hdown := ahead_down_nil (s := s) h2 r hr
        omega
      | DOWN =>
        rw [hdir] at h1 h2
        have hdown := ahead_down_nil h1 r hr
        have hup := ahead_up_nil (s := s) h2 r hr
        omega

/-- From idle, when every pending floor is the floor the car is on, both
policies return that floor; only the direction they leave behind may differ. -/
lemma directionBased_scan_idle_same_floor (s : State) (hne : s.requests ≠ [])
    (hd : s.direction = Direction.IDLE) (hall : ∀ r ∈ s.requests, r.floor = s.currentFloor) :
    SameFloorAs s (getNextFloorSCAN s) (getNextFloorDirectionBased s) := by
  obtain ⟨m, -, hfirst, hscan⟩ := getNextFloorSCAN_idle s hne hd
  obtain ⟨m2, -, hfirst2, hdb⟩ := getNextFloorDirectionBased_idle s hne hd
  have hd2 : ({ s with direction := towards s m } : State).direction ≠ Direction.IDLE := by
    show towards s m ≠ Direction.IDLE
    unfold towards
    split <;> simp
  obtain ⟨x, d, hx, hres⟩ :=
    getNextFloorSCAN_moving_total { s with direction := towards s m } hne hd2
  have hxf : x.floor = s.currentFloor := hall x hx
  have hmf : m2.floor = s.currentFloor := hall m2 hfirst2.mem
  refine ⟨s.currentFloor, d, towards s m2, ?_, ?_, ?_⟩
  · rw [hscan, hres, hxf]
  · rw [hdb, hmf]
  · intro _ r hr
    have := hall r hr
    omega

/-- C7, amended. DirectionBased differs from SCAN only in the fallback
direction, except from idle with a request pending for the floor the car is on
and another floor pending as well: for a non-empty pending list, with direction
`UP` or `DOWN`, or with direction `IDLE` and either no pending floor equal to
`currentFloor` or every pending floor equal to `currentFloor`,
`getNextFloorDirectionBased` returns the same floor as `getNextFloorSCAN`, and
the directions the two leave behind differ only when no pending floor lies
strictly above and none strictly below `currentFloor`. -/
theorem getNextFloorDirectionBased_eq_SCAN (s : State) (hne : s.requests ≠ [])
    (h : s.direction ≠ Direction.IDLE ∨ (∀ r ∈ s.requests, r.floor ≠ s.currentFloor) ∨
      ∀ r ∈ s.requests, r.floor = s.currentFloor) :
    SameFloorAs s (getNextFloorSCAN s) (getNextFloorDirectionBased s) := by
  by_cases hd : s.direction = Direction.IDLE
  · rcases h with h | hcf | hall
    · exact absurd hd h
    · obtain ⟨m, hm, -, hscan⟩ := scan_idle_nearest s hd hne hcf
      obtain ⟨m2, hm2, -, hdb⟩ := getNextFloorDirectionBased_idle s hne hd
      have hmm : m2 = m := by
        rw [hm] at hm2
        injection hm2 with h1
        exact h1.symm
      rw [hmm] at hdb
      exact ⟨m.floor, towards s m, towards s m, hscan, hdb, fun hc => absurd rfl hc⟩
    · exact directionBased_scan_idle_same_floor s hne hd hall
  · exact directionBased_scan_moving s hne hd

/-- Instance of C7 (amended): floor 5, idle, floor 5 alone pending; both
policies return floor 5, SCAN leaving `UP` and DirectionBased `DOWN`. -/
theorem getNextFloorDirectionBased_eq_SCAN_witness :
    (idleAloneAtFive.requests ≠ [] ∧
        (idleAloneAtFive.direction ≠ Direction.IDLE ∨
          (∀ r ∈ idleAloneAtFive.requests, r.floor ≠ idleAloneAtFive.currentFloor) ∨
          ∀ r ∈ idleAloneAtFive.requests, r.floor = idleAloneAtFive.currentFloor)) ∧
      SameFloorAs idleAloneAtFive (getNextFloorSCAN idleAloneAtFive)
        (getNextFloorDirectionBased idleAloneAtFive) ∧
      getNextFloorSCAN idleAloneAtFive =
        Except.ok (some 5, { idleAloneAtFive with direction := Direction.UP }) ∧
      getNextFloorDirectionBased idleAloneAtFive =
        Except.ok (some 5, { idleAloneAtFive with direction := Direction.DOWN }) :=
  ⟨⟨by simp [idleAloneAtFive], Or.inr (Or.inr (by simp [idleAloneAtFive, initialState]))⟩,
    getNextFloorDirectionBased_eq_SCAN idleAloneAtFive (by simp [idleAloneAtFive])
      (Or.inr (Or.inr (by simp [idleAloneAtFive, initialState]))),
    rfl, rfl⟩

/-- C7 as stated fails: at floor 5, idle, with the distinct floors 5 and 7
pending, `getNextFloorSCAN` returns 7 and leaves `UP` while
`getNextFloorDirectionBased` returns 5 and leaves `DOWN`: the floors differ, and
the directions differ although floor 7 lies strictly above the car. -/
theorem getNextFloorDirectionBased_ne_SCAN_idle :
    idleAtFiveBelowSeven.direction = Direction.IDLE ∧
      idleAtFiveBelowSeven.requests ≠ [] ∧
      (idleAtFiveBelowSeven.requests.map Request.floor).Nodup ∧
      getNextFloorSCAN idleAtFiveBelowSeven =
        Except.ok (some 7, { idleAtFiveBelowSeven with direction := Direction.UP }) ∧
      getNextFloorDirectionBased idleAtFiveBelowSeven =
        Except.ok (some 5, { idleAtFiveBelowSeven with direction := Direction.DOWN }) ∧
      (∃ r ∈ idleAtFiveBelowSeven.requests, r.floor > idleAtFiveBelowSeven.currentFloor) ∧
      ¬ SameFloorAs idleAtFiveBelowSeven (getNextFloorSCAN idleAtFiveBelowSeven)
        (getNextFloorDirectionBased idleAtFiveBelowSeven) := by
  refine ⟨rfl, by simp [idleAtFiveBelowSeven], by decide, rfl, rfl,
    ⟨⟨7, 1⟩, by simp [idleAtFiveBelowSeven], by decide⟩, ?_⟩
  rintro ⟨f, d1, d2, h1, h2, -⟩
  have e1 : getNextFloorSCAN idleAtFiveBelowSeven =
      Except.ok (some 7, { idleAtFiveBelowSeven with direction := Direction.UP }) := rfl
  have e2 : getNextFloorDirectionBased idleAtFiveBelowSeven =
      Except.ok (some 5, { idleAtFiveBelowSeven with direction := Direction.DOWN }) := rfl
  rw [e1] at h1
  rw [e2] at h2
  have hf1 : (7 : Int) = f := by
    injection h1 with a
    injection a with b _
    injection b
  have hf2 : (5 : Int) = f := by
    injection h2 with a
    injection a with b _
    injection b
  omega

/-- A result of the shape the totality lemmas give answers a pending floor. -/
lemma answersPending_of_total {s : State} {res : Except JsError (Option Int × State)}
    (hne : s.requests ≠ [])
    (h : ∃ x d, x ∈ s.requests ∧ res = Except.ok (some x.floor, { s with direction := d })) :
    AnswersPending s res := by
  obtain ⟨x, d, hx, hres⟩ := h
  refine ⟨some x.floor, d, hres, ⟨fun hc => Option.noConfusion hc, fun hc => absurd hc hne⟩, ?_⟩
  intro f hf
  injection hf with hf
  exact ⟨x, hx, hf⟩

/-- The `null` answer on an empty list answers a pending floor vacuously. -/
lemma answersPending_of_nil {s : State} {res : Except JsError (Option Int × State)}
    (he : s.requests = []) (h : res = Except.ok (none, s)) : AnswersPending s res :=
  ⟨none, s.direction, h, ⟨fun _ => he, fun _ => rfl⟩, fun _ hf => Option.noConfusion hf⟩

/-- C8. The dispatcher answers `null` exactly on an empty set and never invents
a floor: for every algorithm name, floor and direction, `getNextFloor` does not
throw, returns `null` if and only if no request is pending, and otherwise
returns the floor of a pending request. The same holds for each of the three
policies called directly, so the nearest-request `reduce` never runs on an
empty array and the trailing `return null` of `getNextFloorDirectionBased` is
never reached (a non-empty list always gets a floor). -/
theorem getNextFloor_none_iff_empty (s : State) :
    AnswersPending s (getNextFloor s) ∧
      AnswersPending s (getNextFloorFIFO s) ∧
      AnswersPending s (getNextFloorSCAN s) ∧
      AnswersPending s (getNextFloorDirectionBased s) := by
  by_cases he : s.requests = []
  · have hlen : s.requests.length = 0 := by rw [he]; rfl
    refine ⟨answersPending_of_nil he (getNextFloor_nil s he), answersPending_of_nil he ?_,
      answersPending_of_nil he ?_, answersPending_of_nil he ?_⟩
    · unfold getNextFloorFIFO
      rw [he]
    · unfold getNextFloorSCAN
      rw [if_pos hlen]
    · unfold getNextFloorDirectionBased
      rw [if_pos hlen]
  · refine ⟨answersPending_of_total he (getNextFloor_total s he), ?_,
      answersPending_of_total he (getNextFloorSCAN_total s he),
      answersPending_of_total he (getNextFloorDirectionBased_total s he)⟩
    obtain ⟨x, t, hx, hres⟩ := getNextFloorFIFO_total s he
    exact answersPending_of_total he
      ⟨x, s.direction, by rw [hx]; exact List.mem_cons_self _ _, hres⟩

/-! ## The tick -/

/-- The tick as its three blocks. -/
lemma moveElevator_eq (s : State) (now : Nat) :
    moveElevator s now =
      if s.isPaused then Except.ok s
      else if s.targetFloor = none ∨ s.targetFloor = some s.currentFloor then
        dispatch (arrive s now)
      else Except.ok (moveTowardsTarget s) := rfl

/-- Moving towards the target changes `currentFloor` only. -/
lemma moveTowardsTarget_eq (s : State) :
    ∃ c, moveTowardsTarget s = { s with currentFloor := c } ∧
      (s.targetFloor = none ∨ s.targetFloor = some s.currentFloor → c = s.currentFloor) := by
  unfold moveTowardsTarget
  split
  · rename_i t ht
    split
    · rename_i hlt
      refine ⟨s.currentFloor + 1, rfl, ?_⟩
      rintro (hc | hc)
      · rw [hc] at ht
        exact Option.noConfusion ht
      · rw [hc] at ht
        injection ht with ht
        omega
    · split
      · rename_i hgt
        refine ⟨s.currentFloor - 1, rfl, ?_⟩
        rintro (hc | hc)
        · rw [hc] at ht
          exact Option.noConfusion ht
        · rw [hc] at ht
          injection ht with ht
          omega
      · exact ⟨s.currentFloor, rfl, fun _ => rfl⟩
  · exact ⟨s.currentFloor, rfl, fun _ => rfl⟩

/-- With nothing pending the selection puts the car to rest. -/
lemma dispatch_nil (s1 : State) (h : s1.requests = []) :
    dispatch s1 = Except.ok { s1 with direction := Direction.IDLE, isRunning := false } := by
  unfold dispatch
  rw [getNextFloor_nil s1 h]

/-- With something pending the selection takes a pending floor as target and moves. -/
lemma dispatch_cons (s1 : State) (h : s1.requests ≠ []) :
    ∃ x d, x ∈ s1.requests ∧
      getNextFloor s1 = Except.ok (some x.floor, { s1 with direction := d }) ∧
      dispatch s1 = Except.ok (moveTowardsTarget
        { s1 with targetFloor := some x.floor, direction := directionTo s1 x.floor }) := by
  obtain ⟨x, d, hx, hres⟩ := getNextFloor_total s1 h
  refine ⟨x, d, hx, hres, ?_⟩
  unfold dispatch
  rw [hres]
  rfl

/-- The selection never throws and leaves the pending requests and the log alone. -/
lemma dispatch_ok (s1 : State) :
    ∃ s2, dispatch s1 = Except.ok s2 ∧ s2.requests = s1.requests ∧
      s2.requestLog = s1.requestLog := by
  by_cases h : s1.requests = []
  · exact ⟨_, dispatch_nil s1 h, rfl, rfl⟩
  · obtain ⟨x, d, -, -, hres⟩ := dispatch_cons s1 h
    obtain ⟨c, hc, -⟩ := moveTowardsTarget_eq
      { s1 with targetFloor := some x.floor, direction := directionTo s1 x.floor }
    rw [hc] at hres
    exact ⟨_, hres, rfl, rfl⟩

/-- A tick never throws. -/
lemma moveElevator_ok (s : State) (now : Nat) : ∃ s2, moveElevator s now = Except.ok s2 := by
  rw [moveElevator_eq]
  split
  · exact ⟨s, rfl⟩
  · split
    · obtain ⟨s2, h, -, -⟩ := dispatch_ok (arrive s now)
      exact ⟨s2, h⟩
    · exact ⟨_, rfl⟩

/-- C9. Arrival clears exactly the served request and logs once: in a state
that is not paused and whose `targetFloor` is set and equal to `currentFloor`,
one tick keeps exactly the pending requests whose floor differs from that floor,
in their arrival order, and puts exactly one `reached` entry naming that floor
in front of the log. A tick taken when `targetFloor` is unset or differs from
`currentFloor` leaves the pending requests and the log as they were. -/
theorem moveElevator_arrival_clears (s : State) (now : Nat) :
    (s.isPaused = false → s.targetFloor = some s.currentFloor →
      ∃ s2, moveElevator s now = Except.ok s2 ∧
        s2.requests = s.requests.filter (fun r => decide (r.floor ≠ s.currentFloor)) ∧
        s2.requestLog =
          { message := LogMessage.reached s.currentFloor, timestamp := now } :: s.requestLog) ∧
    (s.targetFloor = none ∨ s.targetFloor ≠ some s.currentFloor →
      ∃ s2, moveElevator s now = Except.ok s2 ∧
        s2.requests = s.requests ∧ s2.requestLog = s.requestLog) := by
  constructor
  · intro hp ht
    rw [moveElevator_eq, hp]
    simp only [Bool.false_eq_true, if_false, ht, or_true, if_true]
    obtain ⟨s2, h, hreq, hlog⟩ := dispatch_ok (arrive s now)
    refine ⟨s2, h, ?_, ?_⟩
    · rw [hreq]
      unfold arrive
      rw [ht]
      rfl
    · rw [hlog]
      unfold arrive
      rw [ht]
      rfl
  · intro ht
    have hne : s.targetFloor ≠ some s.currentFloor := by
      rcases ht with ht | ht
      · rw [ht]
        exact fun hc => Option.noConfusion hc
      · exact ht
    rw [moveElevator_eq]
    split
    · exact ⟨s, rfl, rfl, rfl⟩
    · split
      · rename_i hcond
        have hnone : s.targetFloor = none := by
          rcases hcond with hc | hc
          · exact hc
          · exact absurd hc hne
        have harr : arrive s now = s := by
          unfold arrive
          rw [hnone]
        rw [harr]
        exact dispatch_ok s
      · obtain ⟨c, hc, -⟩ := moveTowardsTarget_eq s
        rw [hc]
        exact ⟨_, rfl, rfl, rfl⟩

/-- Instance of C9: the car has reached floor 3 with floors 3 and 6 pending. -/
theorem moveElevator_arrival_clears_witness :
    (arrivedAtThree.isPaused = false ∧
        arrivedAtThree.targetFloor = some arrivedAtThree.currentFloor) ∧
      ∃ s2, moveElevator arrivedAtThree 9 = Except.ok s2 ∧
        s2.requests =
          arrivedAtThree.requests.filter
            (fun r => decide (r.floor ≠ arrivedAtThree.currentFloor)) ∧
        s2.requestLog =
          { message := LogMessage.reached arrivedAtThree.currentFloor, timestamp := 9 } ::
            arrivedAtThree.requestLog :=
  ⟨⟨rfl, rfl⟩, (moveElevator_arrival_clears arrivedAtThree 9).1 rfl rfl⟩

/-- C10. Auto-idle on the arrival tick: in a state that is not paused, whose
`targetFloor` equals `currentFloor` and whose only pending request is the one
for that floor, the tick that removes it ends with no pending request,
`direction = IDLE`, `isRunning = false`, `targetFloor` unset and `currentFloor`
unchanged; every other field but the log, which gains the arrival entry, keeps
its value. -/
theorem moveElevator_auto_idle (s : State) (now : Nat) (r : Request)
    (hp : s.isPaused = false) (ht : s.targetFloor = some s.currentFloor)
    (hreq : s.requests = [r]) (hr : r.floor = s.currentFloor) :
    moveElevator s now = Except.ok
      { s with
        requests := []
        requestLog :=
          { message := LogMessage.reached s.currentFloor, timestamp := now } :: s.requestLog
        targetFloor := none
        direction := Direction.IDLE
        isRunning := false } := by
  rw [moveElevator_eq, hp]
  simp only [Bool.false_eq_true, if_false, ht, or_true, if_true]
  have harr : arrive s now =
      { s with
        requests := []
        requestLog :=
          { message := LogMessage.reached s.currentFloor, timestamp := now } :: s.requestLog
        targetFloor := none } := by
    unfold arrive
    rw [ht]
    simp [logRequest, hreq, hr]
  rw [harr, dispatch_nil _ rfl]
  simp [hp]

/-- Instance of C10: the last pending request is the one just reached. -/
theorem moveElevator_auto_idle_witness :
    (lastStopAtThree.isPaused = false ∧
        lastStopAtThree.targetFloor = some lastStopAtThree.currentFloor ∧
        lastStopAtThree.requests = [{ floor := 3, timestamp := 0 }] ∧
        ({ floor := 3, timestamp := 0 } : Request).floor = lastStopAtThree.currentFloor) ∧
      moveElevator lastStopAtThree 9 = Except.ok
        { lastStopAtThree with
          requests := []
          requestLog :=
            { message := LogMessage.reached lastStopAtThree.currentFloor, timestamp := 9 } ::
              lastStopAtThree.requestLog
          targetFloor := none
          direction := Direction.IDLE
          isRunning := false } :=
  ⟨⟨rfl, rfl, rfl, rfl⟩,
    moveElevator_auto_idle lastStopAtThree 9 { floor := 3, timestamp := 0 } rfl rfl rfl rfl⟩

/-! ## FIFO runs -/

lemma requestedFloors_cons_requested (f : Int) (t : Nat) (log : List LogEntry) :
    requestedFloors ({ message := LogMessage.requested f, timestamp := t } :: log) =
      requestedFloors log ++ [f] := by
  simp [requestedFloors, List.filterMap_append]

lemma requestedFloors_cons_reached (f : Int) (t : Nat) (log : List LogEntry) :
    requestedFloors ({ message := LogMessage.reached f, timestamp := t } :: log) =
      requestedFloors log := by
  simp [requestedFloors, List.filterMap_append]

lemma reachedFloors_cons_requested (f : Int) (t : Nat) (log : List LogEntry) :
    reachedFloors ({ message := LogMessage.requested f, timestamp := t } :: log) =
      reachedFloors log := by
  simp [reachedFloors, List.filterMap_append]

lemma reachedFloors_cons_reached (f : Int) (t : Nat) (log : List LogEntry) :
    reachedFloors ({ message := LogMessage.reached f, timestamp := t } :: log) =
      reachedFloors log ++ [f] := by
  simp [reachedFloors, List.filterMap_append]

/-- The constructor state satisfies the FIFO invariant. -/
lemma fifoInv_initialState : FifoInv initialState :=
  { fifo := rfl
    notPaused := rfl
    nodup := List.nodup_nil
    target := fun _ h => Option.noConfusion h
    log := rfl }

/-- Under FIFO the dispatcher returns the oldest pending floor and changes nothing. -/
lemma getNextFloor_fifo (s : State) (h : s.algorithm = "fifo") (r : Request)
    (rs : List Request) (hreq : s.requests = r :: rs) :
    getNextFloor s = Except.ok (some r.floor, s) := by
  unfold getNextFloor getNextFloorFIFO
  rw [hreq, if_pos h]
  rfl

/-- The filter of the arrival removes the oldest request alone when floors are distinct. -/
lemma filter_head_floor (r : Request) (rs : List Request)
    (hnd : ((r :: rs).map Request.floor).Nodup) :
    (r :: rs).filter (fun x => decide (x.floor ≠ r.floor)) = rs := by
  rw [List.map_cons, List.nodup_cons] at hnd
  rw [List.filter_cons_of_neg (by simp)]
  rw [List.filter_eq_self]
  intro x hx
  have : x.floor ≠ r.floor := by
    intro hc
    apply hnd.1
    rw [← hc]
    exact List.mem_map_of_mem _ hx
  simpa using this

/-- A submission keeps the FIFO invariant. -/
lemma fifoInv_addRequest {s : State} (h : FifoInv s) (floor : Int) (now : Nat) :
    FifoInv (addRequest s floor now) := by
  by_cases hrej : floor < 1 ∨ floor > s.totalFloors ∨ ∃ r ∈ s.requests, r.floor = floor
  · rw [addRequest_of_rejected s floor now hrej]
    exact h
  · have h1 : 1 ≤ floor := by
      by_contra hc
      exact hrej (Or.inl (by omega))
    have h2 : floor ≤ s.totalFloors := by
      by_contra hc
      exact hrej (Or.inr (Or.inl (by omega)))
    have h3 : ∀ r ∈ s.requests, r.floor ≠ floor := by
      intro r hr hf
      exact hrej (Or.inr (Or.inr ⟨r, hr, hf⟩))
    have hbase : FifoInv (logRequest { s with requests := s.requests ++ [({ floor := floor, timestamp := now } : Request)] }
        (LogMessage.requested floor) now) :=
      { fifo := h.fifo
        notPaused := h.notPaused
        nodup := by
          show ((s.requests ++ [({ floor := floor, timestamp := now } : Request)]).map Request.floor).Nodup
          rw [List.map_append, List.map_singleton]
          apply List.Nodup.append h.nodup (List.nodup_singleton _)
          intro a ha hb
          rw [List.mem_singleton] at hb
          obtain ⟨r, hr, hra⟩ := List.mem_map.mp ha
          exact h3 r hr (hra.trans hb)
        target := by
          intro t ht
          obtain ⟨r, rs, hreq, hrt⟩ := h.target t ht
          refine ⟨r, rs ++ [({ floor := floor, timestamp := now } : Request)], ?_, hrt⟩
          show s.requests ++ [({ floor := floor, timestamp := now } : Request)] = r :: (rs ++ [({ floor := floor, timestamp := now } : Request)])
          rw [hreq]
          rfl
        log := by
          show requestedFloors (({ message := LogMessage.requested floor, timestamp := now } : LogEntry) :: s.requestLog) =
            reachedFloors (({ message := LogMessage.requested floor, timestamp := now } : LogEntry) :: s.requestLog) ++
              (s.requests ++ [({ floor := floor, timestamp := now } : Request)]).map Request.floor
          rw [requestedFloors_cons_requested, reachedFloors_cons_requested, h.log,
            List.map_append, List.map_singleton, List.append_assoc] }
    rw [addRequest_of_accepted s floor now h1 h2 h3]
    split
    · unfold start
      split
      · exact hbase
      · exact
          { fifo := hbase.fifo
            notPaused := rfl
            nodup := hbase.nodup
            target := hbase.target
            log := hbase.log }
    · exact hbase

/-- The selection keeps the FIFO invariant when no target is set. -/
lemma fifoInv_dispatch {s1 : State} (h : FifoInv s1) (ht : s1.targetFloor = none) :
    ∃ s2, dispatch s1 = Except.ok s2 ∧ FifoInv s2 := by
  cases hreq : s1.requests with
  | nil =>
    refine ⟨_, dispatch_nil s1 hreq, ?_⟩
    exact
      { fifo := h.fifo
        notPaused := h.notPaused
        nodup := h.nodup
        target := fun t hc => by
          have hc2 : s1.targetFloor = some t := hc
          rw [ht] at hc2
          exact Option.noConfusion hc2
        log := h.log }
  | cons r rs =>
    have hres : dispatch s1 = Except.ok (moveTowardsTarget
        { s1 with targetFloor := some r.floor, direction := directionTo s1 r.floor }) := by
      unfold dispatch
      rw [getNextFloor_fifo s1 h.fifo r rs hreq]
    obtain ⟨c, hc, -⟩ := moveTowardsTarget_eq
      { s1 with targetFloor := some r.floor, direction := directionTo s1 r.floor }
    rw [hc] at hres
    refine ⟨_, hres, ?_⟩
    exact
      { fifo := h.fifo
        notPaused := h.notPaused
        nodup := h.nodup
        target := fun t hc => by
          have hc2 : some r.floor = some t := hc
          injection hc2 with hc2
          exact ⟨r, rs, hreq, hc2⟩
        log := h.log }

/-- The removal of the reached request keeps the FIFO invariant and unsets the target. -/
lemma fifoInv_arrive {s : State} (h : FifoInv s) (now : Nat) :
    FifoInv (arrive s now) ∧ (arrive s now).targetFloor = none := by
  unfold arrive
  split
  · rename_i t ht
    obtain ⟨r, rs, hreq, hrt⟩ := h.target t ht
    have hnd := h.nodup
    rw [hreq] at hnd
    have hfilter : s.requests.filter (fun x => decide (x.floor ≠ t)) = rs := by
      rw [hreq, ← hrt]
      exact filter_head_floor r rs hnd
    refine ⟨?_, rfl⟩
    exact
      { fifo := h.fifo
        notPaused := h.notPaused
        nodup := by
          show ((s.requests.filter (fun x => decide (x.floor ≠ t))).map Request.floor).Nodup
          rw [hfilter]
          rw [List.map_cons, List.nodup_cons] at hnd
          exact hnd.2
        target := fun u hc => Option.noConfusion hc
        log := by
          show requestedFloors (({ message := LogMessage.reached t, timestamp := now } : LogEntry) :: s.requestLog) =
            reachedFloors (({ message := LogMessage.reached t, timestamp := now } : LogEntry) :: s.requestLog) ++
              (s.requests.filter (fun x => decide (x.floor ≠ t))).map Request.floor
          rw [hfilter, requestedFloors_cons_reached, reachedFloors_cons_reached, h.log, hreq,
            List.map_cons, hrt, List.append_assoc]
          rfl }
  · rename_i ht
    exact ⟨h, ht⟩

/-- A tick keeps the FIFO invariant and does not throw. -/
lemma fifoInv_moveElevator {s : State} (h : FifoInv s) (now : Nat) :
    ∃ s2, moveElevator s now = Except.ok s2 ∧ FifoInv s2 := by
  rw [moveElevator_eq]
  split
  · exact ⟨s, rfl, h⟩
  · split
    · obtain ⟨hinv, hnone⟩ := fifoInv_arrive h now
      exact fifoInv_dispatch hinv hnone
    · obtain ⟨c, hc, -⟩ := moveTowardsTarget_eq s
      rw [hc]
      exact ⟨_, rfl,
        { fifo := h.fifo
          notPaused := h.notPaused
          nodup := h.nodup
          target := h.target
          log := h.log }⟩

/-- A run of submissions and ticks keeps the FIFO invariant and does not throw. -/
lemma fifoInv_run (calls : List Call) :
    ∀ s : State, FifoInv s → (∀ c ∈ calls, Call.isSubmitOrTick c = true) →
      ∃ s2, run s calls = Except.ok s2 ∧ FifoInv s2 := by
  induction calls with
  | nil => exact fun s h _ => ⟨s, rfl, h⟩
  | cons c cs ih =>
    intro s h hall
    have hc := hall c (List.mem_cons_self _ _)
    have hcs : ∀ c2 ∈ cs, Call.isSubmitOrTick c2 = true :=
      fun c2 h2 => hall c2 (List.mem_cons_of_mem _ h2)
    cases c with
    | addRequest floor now =>
      obtain ⟨s2, hrun, hinv⟩ := ih (addRequest s floor now) (fifoInv_addRequest h floor now) hcs
      exact ⟨s2, hrun, hinv⟩
    | tick now =>
      obtain ⟨s1, hstep, hinv1⟩ := fifoInv_moveElevator h now
      obtain ⟨s2, hrun, hinv⟩ := ih s1 hinv1 hcs
      refine ⟨s2, ?_, hinv⟩
      show (match moveElevator s now with
        | Except.error e => Except.error e
        | Except.ok s1 => run s1 cs) = Except.ok s2
      rw [hstep]
      exact hrun
    | start => exact absurd hc (by decide)
    | pause => exact absurd hc (by decide)
    | reset => exact absurd hc (by decide)
    | selectAlgorithm value => exact absurd hc (by simp [Call.isSubmitOrTick])
    | applyBasicSettings => exact absurd hc (by decide)
    | applyAdvancedSettings a b => exact absurd hc (by simp [Call.isSubmitOrTick])

/-- C4. FIFO serves in submission order: from the constructor state (floor 1,
idle, nothing pending, policy `fifo`), every sequence of `addRequest` and tick
calls runs without exception, and in the state it reaches the floors logged as
reached, oldest first, followed by the floors still pending in arrival order,
are exactly the floors logged as requested, oldest first; so the reached floors
are a prefix of the accepted ones, whatever their distance from the car.
Submitting 5, 2, 8 from floor 1 and ticking makes the successive targets 5,
then 2, then 8, and the floors are reached in that order. -/
theorem fifo_serves_in_submission_order (calls : List Call)
    (h : ∀ c ∈ calls, Call.isSubmitOrTick c = true) :
    (∃ s, run initialState calls = Except.ok s ∧
      requestedFloors s.requestLog =
        reachedFloors s.requestLog ++ s.requests.map Request.floor) ∧
    targetTrace initialState fiveTwoEight =
      [none, none, none, some 5, some 5, some 5, some 5, some 2, some 2, some 2,
        some 8, some 8, some 8, some 8, some 8, some 8, none] ∧
    (run initialState fiveTwoEight).toOption.map (fun s => reachedFloors s.requestLog) =
      some [5, 2, 8] := by
  obtain ⟨s, hrun, hinv⟩ := fifoInv_run calls initialState fifoInv_initialState h
  exact ⟨⟨s, hrun, hinv.log⟩, by decide, by decide⟩

/-- Instance of C4: the run that submits 5, 2, 8 and ticks fourteen times. -/
theorem fifo_serves_in_submission_order_witness :
    (∀ c ∈ fiveTwoEight, Call.isSubmitOrTick c = true) ∧
      ∃ s, run initialState fiveTwoEight = Except.ok s ∧
        requestedFloors s.requestLog =
          reachedFloors s.requestLog ++ s.requests.map Request.floor :=
  ⟨by decide, (fifo_serves_in_submission_order fiveTwoEight (by decide)).1⟩

/-! ## Reconfiguration -/

/-- C12. Reconfiguration applies each field independently, then clamps and
prunes: for integers `n` and `p`, `applyAdvancedSettings` sets `totalFloors` to
`n` when `3 ≤ n ≤ 20` and otherwise keeps it, sets the tick period `speed` to
`p` when `100 ≤ p ≤ 2000` and otherwise keeps it, each decision independent of
the other field, then sets `currentFloor` to the minimum of `currentFloor` and
the new `totalFloors` and keeps exactly the pending requests whose floor is at
most the new `totalFloors`, in their order. With floors 4 and 9 pending and the
car at floor 8, lowering ten floors to five leaves floor 4 pending and the car
at floor 5 (and a period of 3000 is ignored). -/
theorem applyAdvancedSettings_clamps_and_prunes (s : State) (n p : Int) :
    (applyAdvancedSettings s (some n) (some p)).totalFloors =
        (if 3 ≤ n ∧ n ≤ 20 then n else s.totalFloors) ∧
      (applyAdvancedSettings s (some n) (some p)).speed =
        (if 100 ≤ p ∧ p ≤ 2000 then p else s.speed) ∧
      (applyAdvancedSettings s (some n) (some p)).currentFloor =
        min s.currentFloor (if 3 ≤ n ∧ n ≤ 20 then n else s.totalFloors) ∧
      (applyAdvancedSettings s (some n) (some p)).requests =
        s.requests.filter
          (fun r => decide (r.floor ≤ (if 3 ≤ n ∧ n ≤ 20 then n else s.totalFloors))) ∧
      applyAdvancedSettings tenFloorsAtEight (some 5) (some 3000) =
        { tenFloorsAtEight with
          totalFloors := 5
          currentFloor := 5
          requests := [{ floor := 4, timestamp := 0 }] } := by
  refine ⟨?_, ?_, ?_, ?_, rfl⟩
  all_goals
    unfold applyAdvancedSettings
    by_cases hn : 3 ≤ n ∧ n ≤ 20 <;> by_cases hp : 100 ≤ p ∧ p ≤ 2000
    all_goals
      simp only [ge_iff_le, gt_iff_lt, hn, hp, and_self, if_true, if_false]
      split <;> simp [min_def] <;> omega

/-! ## The tick, case by case -/

/-- With a target the move block puts the car one step towards it. -/
lemma moveTowardsTarget_some (s : State) (t : Int) (h : s.targetFloor = some t) :
    moveTowardsTarget s = { s with currentFloor := stepTowards s.currentFloor t } := by
  unfold moveTowardsTarget stepTowards
  split
  · rename_i t2 ht2
    have htt : t2 = t := by
      rw [h] at ht2
      injection ht2 with ht2
      exact ht2.symm
    subst htt
    split
    · rfl
    · split
      · rfl
      · rfl
  · rename_i hnone
    rw [h] at hnone
    exact Option.noConfusion hnone

/-- Without a completed request the removal block changes nothing. -/
lemma arrive_of_none (s : State) (now : Nat) (h : s.targetFloor = none) : arrive s now = s := by
  unfold arrive
  rw [h]

/-- With a target the removal block filters the requests, logs the arrival and
unsets the target. -/
lemma arrive_of_some (s : State) (now : Nat) (t : Int) (h : s.targetFloor = some t) :
    arrive s now =
      { s with
        requests := s.requests.filter (fun r => decide (r.floor ≠ t))
        requestLog := { message := LogMessage.reached t, timestamp := now } :: s.requestLog
        targetFloor := none } := by
  unfold arrive
  rw [h]
  rfl

/-- What the removal block leaves alone, and what it does to the requests. -/
lemma arrive_frame (s : State) (now : Nat) :
    (arrive s now).currentFloor = s.currentFloor ∧
      (arrive s now).totalFloors = s.totalFloors ∧
      (arrive s now).isRunning = s.isRunning ∧
      (arrive s now).isPaused = s.isPaused ∧
      (arrive s now).direction = s.direction ∧
      (arrive s now).targetFloor = none ∧
      (∀ r ∈ (arrive s now).requests, r ∈ s.requests) ∧
      (s.targetFloor = none → arrive s now = s) := by
  cases h : s.targetFloor with
  | none =>
    rw [arrive_of_none s now h]
    exact ⟨rfl, rfl, rfl, rfl, rfl, h, fun _ hr => hr, fun _ => rfl⟩
  | some t =>
    rw [arrive_of_some s now t h]
    exact ⟨rfl, rfl, rfl, rfl, rfl, rfl, fun r hr => (List.mem_filter.mp hr).1,
      fun hc => Option.noConfusion hc⟩

/-- The four ways a tick can go: paused; on the way to the target; selection
with nothing pending; selection of a pending floor followed by one step. -/
lemma moveElevator_cases (s : State) (now : Nat) :
    (s.isPaused = true ∧ moveElevator s now = Except.ok s) ∨
    (s.isPaused = false ∧ ∃ t, s.targetFloor = some t ∧ t ≠ s.currentFloor ∧
      moveElevator s now =
        Except.ok { s with currentFloor := stepTowards s.currentFloor t }) ∨
    (s.isPaused = false ∧ (s.targetFloor = none ∨ s.targetFloor = some s.currentFloor) ∧
      (arrive s now).requests = [] ∧
      moveElevator s now =
        Except.ok { arrive s now with direction := Direction.IDLE, isRunning := false }) ∨
    (s.isPaused = false ∧ (s.targetFloor = none ∨ s.targetFloor = some s.currentFloor) ∧
      ∃ x ∈ (arrive s now).requests,
        moveElevator s now =
          Except.ok { arrive s now with
            targetFloor := some x.floor
            direction := directionTo (arrive s now) x.floor
            currentFloor := stepTowards (arrive s now).currentFloor x.floor }) := by
  rw [moveElevator_eq]
  by_cases hp : s.isPaused = true
  · exact Or.inl ⟨hp, by rw [if_pos hp]⟩
  · have hp2 : s.isPaused = false := by simpa using hp
    right
    rw [if_neg hp]
    by_cases hcond : s.targetFloor = none ∨ s.targetFloor = some s.currentFloor
    · rw [if_pos hcond]
      right
      by_cases hnil : (arrive s now).requests = []
      · left
        exact ⟨hp2, hcond, hnil, dispatch_nil _ hnil⟩
      · right
        obtain ⟨x, d, hx, -, hres⟩ := dispatch_cons (arrive s now) hnil
        refine ⟨hp2, hcond, x, hx, ?_⟩
        rw [hres, moveTowardsTarget_some _ x.floor rfl]
    · rw [if_neg hcond]
      left
      obtain ⟨t, ht⟩ : ∃ t, s.targetFloor = some t := by
        cases h : s.targetFloor with
        | none => exact absurd (Or.inl h) hcond
        | some t => exact ⟨t, rfl⟩
      have hne : t ≠ s.currentFloor := by
        intro hc
        apply hcond
        right
        rw [ht, hc]
      refine ⟨hp2, t, ht, hne, ?_⟩
      rw [moveTowardsTarget_some s t ht]

/-- One step towards a floor stays within one floor and comes one floor nearer. -/
lemma stepTowards_spec (c t : Int) :
    |stepTowards c t - c| ≤ 1 ∧
      (t ≠ c → |t - stepTowards c t| + 1 = |t - c|) ∧
      (t = c → stepTowards c t = c) := by
  unfold stepTowards
  split
  · rename_i h
    refine ⟨by simp, fun _ => ?_, fun hc => by omega⟩
    rw [abs_of_nonneg (by omega), abs_of_pos (by omega)]
    omega
  · split
    · rename_i h1 h2
      refine ⟨by simp, fun _ => ?_, fun hc => by omega⟩
      rw [abs_of_nonpos (by omega), abs_of_neg (by omega)]
      omega
    · rename_i h1 h2
      refine ⟨by simp, fun hc => ?_, fun _ => rfl⟩
      exact absurd (by omega) hc

/-- C17. A tick moves the car at most one floor, and always toward the target:
every tick returns a state whose `currentFloor` is within one floor of the old
one. When the tick runs (the car is not paused), with the target as it stands
after the selection step: if it is set and differs from `currentFloor` the
distance to it decreases by exactly 1, and if it is unset or equals
`currentFloor` the car does not move. A paused tick returns the state
unchanged. The move block itself has the same property in every state. -/
theorem moveElevator_one_floor_toward_target (s : State) (now : Nat) :
    (∃ s2, moveElevator s now = Except.ok s2 ∧
      |s2.currentFloor - s.currentFloor| ≤ 1 ∧
      (s.isPaused = true → s2 = s) ∧
      (s.isPaused = false →
        (∀ t, s2.targetFloor = some t → t ≠ s.currentFloor →
          |t - s2.currentFloor| + 1 = |t - s.currentFloor|) ∧
        (s2.targetFloor = none ∨ s2.targetFloor = some s.currentFloor →
          s2.currentFloor = s.currentFloor))) ∧
    ((∀ t, s.targetFloor = some t → t ≠ s.currentFloor →
        |t - (moveTowardsTarget s).currentFloor| + 1 = |t - s.currentFloor|) ∧
      (s.targetFloor = none ∨ s.targetFloor = some s.currentFloor →
        (moveTowardsTarget s).currentFloor = s.currentFloor)) := by
  constructor
  · rcases moveElevator_cases s now with
      ⟨hp, hres⟩ | ⟨hp, t, ht, hne, hres⟩ | ⟨hp, hcond, hnil, hres⟩ | ⟨hp, hcond, x, hx, hres⟩
    · refine ⟨s, hres, by simp, fun _ => rfl, fun hc => ?_⟩
      rw [hp] at hc
      exact Bool.noConfusion hc
    · refine ⟨_, hres, (stepTowards_spec s.currentFloor t).1, fun hc => ?_, fun _ => ⟨?_, ?_⟩⟩
      · rw [hp] at hc
        exact Bool.noConfusion hc
      · intro u hu hune
        have hu2 : s.targetFloor = some u := hu
        rw [ht] at hu2
        injection hu2 with hu2
        subst hu2
        exact (stepTowards_spec s.currentFloor t).2.1 hune
      · intro hc
        have hc2 : s.targetFloor = none ∨ s.targetFloor = some s.currentFloor := hc
        rw [ht] at hc2
        rcases hc2 with hc2 | hc2
        · exact Option.noConfusion hc2
        · injection hc2 with hc2
          exact absurd hc2 hne
    · refine ⟨_, hres, ?_, fun hc => ?_, fun _ => ⟨?_, fun _ => (arrive_frame s now).1⟩⟩
      · show |(arrive s now).currentFloor - s.currentFloor| ≤ 1
        rw [(arrive_frame s now).1]
        simp
      · rw [hp] at hc
        exact Bool.noConfusion hc
      · intro u hu _
        have hu2 : (arrive s now).targetFloor = some u := hu
        rw [(arrive_frame s now).2.2.2.2.2.1] at hu2
        exact Option.noConfusion hu2
    · have hcf := (arrive_frame s now).1
      refine ⟨_, hres, ?_, fun hc => ?_, fun _ => ⟨?_, ?_⟩⟩
      · show |stepTowards (arrive s now).currentFloor x.floor - s.currentFloor| ≤ 1
        rw [hcf]
        exact (stepTowards_spec s.currentFloor x.floor).1
      · rw [hp] at hc
        exact Bool.noConfusion hc
      · intro u hu hune
        have hu2 : some x.floor = some u := hu
        injection hu2 with hu2
        subst hu2
        show |x.floor - stepTowards (arrive s now).currentFloor x.floor| + 1 =
          |x.floor - s.currentFloor|
        rw [hcf]
        exact (stepTowards_spec s.currentFloor x.floor).2.1 hune
      · intro hc
        have hc2 : some x.floor = none ∨ some x.floor = some s.currentFloor := hc
        show stepTowards (arrive s now).currentFloor x.floor = s.currentFloor
        rw [hcf]
        rcases hc2 with hc2 | hc2
        · exact Option.noConfusion hc2
        · injection hc2 with hc2
          exact (stepTowards_spec s.currentFloor x.floor).2.2 hc2
  · constructor
    · intro t ht hne
      rw [moveTowardsTarget_some s t ht]
      exact (stepTowards_spec s.currentFloor t).2.1 hne
    · rintro (hc | hc)
      · unfold moveTowardsTarget
        rw [hc]
      · rw [moveTowardsTarget_some s s.currentFloor hc]
        exact (stepTowards_spec s.currentFloor s.currentFloor).2.2 rfl

/-- Instance of C17: the car at floor 2 with target 6 is not paused, and the
tick brings it to floor 3. -/
theorem moveElevator_one_floor_toward_target_witness :
    onTheWayUp.isPaused = false ∧
      ∃ s2, moveElevator onTheWayUp 7 = Except.ok s2 ∧
        s2.targetFloor = some 6 ∧
        |(6 : Int) - s2.currentFloor| + 1 = |(6 : Int) - onTheWayUp.currentFloor| := by
  obtain ⟨s2, hres, -, -, hrun⟩ := (moveElevator_one_floor_toward_target onTheWayUp 7).1
  have heval : moveElevator onTheWayUp 7 =
      Except.ok { onTheWayUp with currentFloor := 3 } := rfl
  have hs2 : s2 = { onTheWayUp with currentFloor := 3 } := by
    rw [heval] at hres
    injection hres with hres
    exact hres.symm
  have htarget : s2.targetFloor = some 6 := by
    rw [hs2]
    rfl
  exact ⟨rfl, s2, hres, htarget, (hrun rfl).1 6 htarget (by decide)⟩

/-- The tick that removes the only pending request puts the car to rest. -/
lemma moveElevator_last_arrival (s : State) (now : Nat) (r : Request)
    (hp : s.isPaused = false) (ht : s.targetFloor = some s.currentFloor)
    (hreq : s.requests = [r]) (hr : r.floor = s.currentFloor) :
    moveElevator s now = Except.ok
      { s with
        requests := []
        requestLog :=
          { message := LogMessage.reached s.currentFloor, timestamp := now } :: s.requestLog
        targetFloor := none
        direction := Direction.IDLE
        isRunning := false } := by
  have harr : arrive s now =
      { s with
        requests := []
        requestLog :=
          { message := LogMessage.reached s.currentFloor, timestamp := now } :: s.requestLog
        targetFloor := none } := by
    rw [arrive_of_some s now s.currentFloor ht]
    simp [hreq, hr]
  rw [moveElevator_eq, if_neg (by rw [hp]; exact Bool.false_ne_true), if_pos (Or.inr ht), harr,
    dispatch_nil _ rfl]

/-- The tick that finds a lone request for the floor the car is on targets that
floor, sets direction `IDLE` and does not move. -/
lemma moveElevator_lone_request (s : State) (now : Nat) (r : Request)
    (hp : s.isPaused = false) (ht : s.targetFloor = none)
    (hreq : s.requests = [r]) (hr : r.floor = s.currentFloor) :
    moveElevator s now = Except.ok
      { s with targetFloor := some s.currentFloor, direction := Direction.IDLE } := by
  have harr : arrive s now = s := arrive_of_none s now ht
  rcases moveElevator_cases s now with
    ⟨hp2, -⟩ | ⟨-, t, ht2, -, -⟩ | ⟨-, -, hnil, -⟩ | ⟨-, -, x, hx, hres⟩
  · rw [hp] at hp2
    exact Bool.noConfusion hp2
  · rw [ht] at ht2
    exact Option.noConfusion ht2
  · rw [harr, hreq] at hnil
    exact List.noConfusion hnil
  · rw [harr] at hx hres
    rw [hreq, List.mem_singleton] at hx
    have hxf : x.floor = s.currentFloor := by rw [hx, hr]
    rw [hres, hxf]
    have h1 : directionTo s s.currentFloor = Direction.IDLE := by
      unfold directionTo
      simp
    have h2 : stepTowards s.currentFloor s.currentFloor = s.currentFloor := by
      unfold stepTowards
      simp
    rw [h1, h2]

/-- C18. A lone request for the floor the car is on is served without moving:
under any policy name and with any direction, from a not-paused state with no
target whose only pending request is for `currentFloor`, the first tick sets
`targetFloor = currentFloor` and `direction = IDLE` and changes nothing else,
and the second tick removes the request, logs one arrival and leaves the car at
rest (`isRunning = false`, no target, direction `IDLE`); `currentFloor` is the
same before and after both ticks. -/
theorem lone_request_served_without_moving (s : State) (t1 t2 : Nat) (r : Request)
    (hp : s.isPaused = false) (ht : s.targetFloor = none)
    (hreq : s.requests = [r]) (hr : r.floor = s.currentFloor) :
    moveElevator s t1 = Except.ok
        { s with targetFloor := some s.currentFloor, direction := Direction.IDLE } ∧
      moveElevator
          { s with targetFloor := some s.currentFloor, direction := Direction.IDLE } t2 =
        Except.ok
          { s with
            requests := []
            requestLog :=
              { message := LogMessage.reached s.currentFloor, timestamp := t2 } :: s.requestLog
            targetFloor := none
            direction := Direction.IDLE
            isRunning := false } :=
  ⟨moveElevator_lone_request s t1 r hp ht hreq hr,
    moveElevator_last_arrival
      { s with targetFloor := some s.currentFloor, direction := Direction.IDLE } t2 r hp rfl
      hreq hr⟩

/-- Instance of C18: SCAN going down at floor 4 with only floor 4 pending. -/
theorem lone_request_served_without_moving_witness :
    (loneRequestAtFour.isPaused = false ∧ loneRequestAtFour.targetFloor = none ∧
        loneRequestAtFour.requests = [{ floor := 4, timestamp := 0 }] ∧
        ({ floor := 4, timestamp := 0 } : Request).floor = loneRequestAtFour.currentFloor) ∧
      moveElevator loneRequestAtFour 5 = Except.ok
        { loneRequestAtFour with
          targetFloor := some loneRequestAtFour.currentFloor
          direction := Direction.IDLE } ∧
      moveElevator
          { loneRequestAtFour with
            targetFloor := some loneRequestAtFour.currentFloor
            direction := Direction.IDLE } 6 =
        Except.ok
          { loneRequestAtFour with
            requests := []
            requestLog :=
              { message := LogMessage.reached loneRequestAtFour.currentFloor, timestamp := 6 } ::
                loneRequestAtFour.requestLog
            targetFloor := none
            direction := Direction.IDLE
            isRunning := false } :=
  ⟨⟨rfl, rfl, rfl, rfl⟩,
    lone_request_served_without_moving loneRequestAtFour 5 6 { floor := 4, timestamp := 0 }
      rfl rfl rfl rfl⟩

/-! ## Runs and invariants -/

/-- A property kept by every allowed call holds at the end of every run of allowed calls. -/
lemma run_preserves (P : State → Prop) (allowed : Call → Prop)
    (hstep : ∀ s c s2, P s → allowed c → step s c = Except.ok s2 → P s2) :
    ∀ (calls : List Call) (s s2 : State), P s → (∀ c ∈ calls, allowed c) →
      run s calls = Except.ok s2 → P s2 := by
  intro calls
  induction calls with
  | nil =>
    intro s s2 hP _ hrun
    have hrun2 : Except.ok s = Except.ok s2 := hrun
    injection hrun2 with hrun2
    rw [← hrun2]
    exact hP
  | cons c cs ih =>
    intro s s2 hP hall hrun
    have hrun2 : (match step s c with
        | Except.error e => Except.error e
        | Except.ok s1 => run s1 cs) = Except.ok s2 := hrun
    cases hst : step s c with
    | error e =>
      rw [hst] at hrun2
      exact Except.noConfusion hrun2
    | ok s1 =>
      rw [hst] at hrun2
      exact ih s1 s2 (hstep s c s1 hP (hall c (List.mem_cons_self _ _)) hst)
        (fun c2 h2 => hall c2 (List.mem_cons_of_mem _ h2)) hrun2

/-- The requests left by the removal block are a sublist of the old ones. -/
lemma arrive_requests_sublist (s : State) (now : Nat) :
    (arrive s now).requests.Sublist s.requests := by
  cases h : s.targetFloor with
  | none =>
    rw [arrive_of_none s now h]
  | some t =>
    rw [arrive_of_some s now t h]
    exact List.filter_sublist _

/-- The shape of every result of `applyAdvancedSettings`. -/
lemma applyAdvancedSettings_frame (s : State) (a b : Option Int) :
    ∃ (T p c : Int) (mi : Option Int),
      applyAdvancedSettings s a b =
        { s with
          totalFloors := T
          speed := p
          moveInterval := mi
          currentFloor := c
          requests := s.requests.filter (fun r => decide (r.floor ≤ T)) } ∧
      (∀ x, a = some x → 3 ≤ x → x ≤ 20 → T = x) := by
  unfold applyAdvancedSettings
  cases a with
  | none =>
    cases b with
    | none =>
      simp only
      split
      · exact ⟨_, _, _, _, rfl, fun x hx => Option.noConfusion hx⟩
      · exact ⟨_, _, _, _, rfl, fun x hx => Option.noConfusion hx⟩
    | some p =>
      simp only
      split <;> split <;> exact ⟨_, _, _, _, rfl, fun x hx => Option.noConfusion hx⟩
  | some n =>
    have hT : ∀ x, some n = some x → 3 ≤ x → x ≤ 20 →
        (if n ≥ 3 ∧ n ≤ 20 then n else s.totalFloors) = x := by
      intro x hx h3 h20
      injection hx with hx
      subst hx
      rw [if_pos ⟨h3, h20⟩]
    cases b with
    | none =>
      simp only
      by_cases hn : n ≥ 3 ∧ n ≤ 20
      · simp only [hn, and_self, if_true] at hT ⊢
        split <;> exact ⟨_, _, _, _, rfl, hT⟩
      · simp only [hn, if_false] at hT ⊢
        split <;> exact ⟨_, _, _, _, rfl, hT⟩
    | some p =>
      simp only
      by_cases hn : n ≥ 3 ∧ n ≤ 20
      · simp only [hn, and_self, if_true] at hT ⊢
        split <;> split <;> exact ⟨_, _, _, _, rfl, hT⟩
      · simp only [hn, if_false] at hT ⊢
        split <;> split <;> exact ⟨_, _, _, _, rfl, hT⟩

/-- The constructor state satisfies the invariant kept by every call. -/
lemma coreInv_initialState : CoreInv initialState :=
  { rest := fun _ _ => ⟨rfl, rfl, rfl⟩
    nodup := List.nodup_nil
    inRange := fun r hr => absurd hr (List.not_mem_nil r) }

/-- What an accepted submission does to the fields the invariants read. -/
lemma addRequest_accepted_frame (s : State) (floor : Int) (now : Nat)
    (h1 : 1 ≤ floor) (h2 : floor ≤ s.totalFloors) (h3 : ∀ r ∈ s.requests, r.floor ≠ floor) :
    (addRequest s floor now).requests = s.requests ++ [{ floor := floor, timestamp := now }] ∧
      (addRequest s floor now).totalFloors = s.totalFloors ∧
      (addRequest s floor now).currentFloor = s.currentFloor ∧
      (addRequest s floor now).targetFloor = s.targetFloor ∧
      ((addRequest s floor now).isRunning = true ∨ (addRequest s floor now).isPaused = true) := by
  rw [addRequest_of_accepted s floor now h1 h2 h3]
  cases hrun : s.isRunning <;> cases hp : s.isPaused <;> simp [start, logRequest, hrun, hp]

/-- A submission keeps the invariant. -/
lemma coreInv_addRequest {s : State} (h : CoreInv s) (floor : Int) (now : Nat) :
    CoreInv (addRequest s floor now) := by
  by_cases hrej : floor < 1 ∨ floor > s.totalFloors ∨ ∃ r ∈ s.requests, r.floor = floor
  · rw [addRequest_of_rejected s floor now hrej]
    exact h
  · have h1 : 1 ≤ floor := by
      by_contra hc
      exact hrej (Or.inl (by omega))
    have h2 : floor ≤ s.totalFloors := by
      by_contra hc
      exact hrej (Or.inr (Or.inl (by omega)))
    have h3 : ∀ r ∈ s.requests, r.floor ≠ floor := by
      intro r hr hf
      exact hrej (Or.inr (Or.inr ⟨r, hr, hf⟩))
    obtain ⟨hreq, htot, -, -, hflag⟩ := addRequest_accepted_frame s floor now h1 h2 h3
    refine ⟨?_, ?_, ?_⟩
    · intro hrun hp
      rcases hflag with hf | hf
      · rw [hrun] at hf
        exact Bool.noConfusion hf
      · rw [hp] at hf
        exact Bool.noConfusion hf
    · rw [hreq, List.map_append, List.map_singleton]
      apply List.Nodup.append h.nodup (List.nodup_singleton _)
      intro a ha hb
      rw [List.mem_singleton] at hb
      obtain ⟨r, hr, hra⟩ := List.mem_map.mp ha
      exact h3 r hr (hra.trans hb)
    · intro r hr
      rw [hreq] at hr
      rw [htot]
      rcases List.mem_append.mp hr with hr | hr
      · exact h.inRange r hr
      · rw [List.mem_singleton.mp hr]
        exact ⟨h1, h2⟩

/-- A tick keeps the invariant. -/
lemma coreInv_moveElevator {s s2 : State} (h : CoreInv s) (now : Nat)
    (hres : moveElevator s now = Except.ok s2) : CoreInv s2 := by
  obtain ⟨hcf, htot, hrun, hpau, hdir, htar, hsub, hsame⟩ := arrive_frame s now
  have hnd : ((arrive s now).requests.map Request.floor).Nodup :=
    h.nodup.sublist ((arrive_requests_sublist s now).map Request.floor)
  have hin : ∀ r ∈ (arrive s now).requests, 1 ≤ r.floor ∧ r.floor ≤ s.totalFloors :=
    fun r hr => h.inRange r (hsub r hr)
  rcases moveElevator_cases s now with
    ⟨-, he⟩ | ⟨-, t, -, -, he⟩ | ⟨-, -, hnil, he⟩ | ⟨hp, -, x, hx, he⟩
  · rw [he] at hres
    injection hres with hres
    rw [← hres]
    exact h
  · rw [he] at hres
    injection hres with hres
    rw [← hres]
    exact ⟨h.rest, h.nodup, h.inRange⟩
  · rw [he] at hres
    injection hres with hres
    rw [← hres]
    exact ⟨fun _ _ => ⟨hnil, htar, rfl⟩, hnd, fun r hr => by rw [htot]; exact hin r hr⟩
  · rw [he] at hres
    injection hres with hres
    rw [← hres]
    refine ⟨?_, hnd, fun r hr => by rw [htot]; exact hin r hr⟩
    intro hr2 hp2
    have hr3 : s.isRunning = false := by rw [← hrun]; exact hr2
    obtain ⟨hreq, htn, -⟩ := h.rest hr3 hp
    rw [hsame htn, hreq] at hx
    exact absurd hx (List.not_mem_nil x)

/-- Every call keeps the invariant. -/
lemma coreInv_step (s : State) (c : Call) (s2 : State) (h : CoreInv s)
    (hst : step s c = Except.ok s2) : CoreInv s2 := by
  cases c with
  | addRequest floor now =>
    have hst2 : Except.ok (addRequest s floor now) = Except.ok s2 := hst
    injection hst2 with hst2
    rw [← hst2]
    exact coreInv_addRequest h floor now
  | tick now => exact coreInv_moveElevator h now hst
  | start =>
    have hst2 : Except.ok (start s) = Except.ok s2 := hst
    injection hst2 with hst2
    rw [← hst2]
    unfold start
    split
    · exact h
    · exact ⟨fun hc _ => Bool.noConfusion hc, h.nodup, h.inRange⟩
  | pause =>
    have hst2 : Except.ok (pause s) = Except.ok s2 := hst
    injection hst2 with hst2
    rw [← hst2]
    exact ⟨fun _ hc => Bool.noConfusion hc, h.nodup, h.inRange⟩
  | reset =>
    have hst2 : Except.ok (reset s) = Except.ok s2 := hst
    injection hst2 with hst2
    rw [← hst2]
    exact ⟨fun _ _ => ⟨rfl, rfl, rfl⟩, List.nodup_nil,
      fun r hr => absurd hr (List.not_mem_nil r)⟩
  | selectAlgorithm value =>
    have hst2 : Except.ok ({ s with algorithm := value } : State) = Except.ok s2 := hst
    injection hst2 with hst2
    rw [← hst2]
    exact ⟨h.rest, h.nodup, h.inRange⟩
  | applyBasicSettings =>
    have hst2 : Except.ok (applyBasicSettings s) = Except.ok s2 := hst
    injection hst2 with hst2
    rw [← hst2]
    exact ⟨fun _ _ => ⟨rfl, rfl, rfl⟩, List.nodup_nil,
      fun r hr => absurd hr (List.not_mem_nil r)⟩
  | applyAdvancedSettings a b =>
    have hst2 : Except.ok (applyAdvancedSettings s a b) = Except.ok s2 := hst
    injection hst2 with hst2
    rw [← hst2]
    obtain ⟨T, p, c, mi, heq, -⟩ := applyAdvancedSettings_frame s a b
    rw [heq]
    refine ⟨?_, ?_, ?_⟩
    · intro hr hp
      obtain ⟨hreq, htn, hd⟩ := h.rest hr hp
      refine ⟨?_, htn, hd⟩
      show s.requests.filter (fun r => decide (r.floor ≤ T)) = []
      rw [hreq]
      rfl
    · exact h.nodup.sublist ((List.filter_sublist _).map Request.floor)
    · intro r hr
      have hr2 : r ∈ s.requests.filter (fun r => decide (r.floor ≤ T)) := hr
      rw [List.mem_filter] at hr2
      exact ⟨(h.inRange r hr2.1).1, by simpa using hr2.2⟩

/-- Every reachable state satisfies the invariant kept by every call. -/
lemma coreInv_of_reachable {s : State} (h : Reachable s) : CoreInv s := by
  obtain ⟨calls, hrun⟩ := h
  exact run_preserves CoreInv (fun _ => True) (fun s c s2 hP _ hst => coreInv_step s c s2 hP hst)
    calls initialState s coreInv_initialState (fun _ _ => trivial) hrun

/-- C11. A tick while paused or not running is a no-op: in every state
reachable from the constructor state by submissions, ticks, start, pause,
reset, policy changes and reconfigurations, if `isPaused` is true or
`isRunning` is false then `moveElevator` returns the state it was given:
`currentFloor`, `direction`, `targetFloor`, `isRunning`, `isPaused`, the pending
requests and the log are all unchanged. -/
theorem moveElevator_noop_when_paused_or_stopped (s : State) (now : Nat) (h : Reachable s)
    (hidle : s.isPaused = true ∨ s.isRunning = false) :
    moveElevator s now = Except.ok s := by
  rw [moveElevator_eq]
  by_cases hp : s.isPaused = true
  · rw [if_pos hp]
  · have hp2 : s.isPaused = false := by simpa using hp
    have hr : s.isRunning = false := by
      rcases hidle with hc | hc
      · exact absurd hc hp
      · exact hc
    obtain ⟨hreq, htn, hd⟩ := (coreInv_of_reachable h).rest hr hp2
    rw [if_neg hp, if_pos (Or.inl htn), arrive_of_none s now htn, dispatch_nil s hreq]
    obtain ⟨cf, tf, sp, alg, reqs, running, paused, dir, tgt, mi, log⟩ := s
    simp only at hr hd
    subst hr
    subst hd
    rfl

/-- Instance of C11: floor 3 is submitted, the car starts, and is then paused. -/
theorem moveElevator_noop_when_paused_or_stopped_witness :
    (Reachable (pause (addRequest initialState 3 0)) ∧
        ((pause (addRequest initialState 3 0)).isPaused = true ∨
          (pause (addRequest initialState 3 0)).isRunning = false)) ∧
      moveElevator (pause (addRequest initialState 3 0)) 1 =
        Except.ok (pause (addRequest initialState 3 0)) :=
  ⟨⟨⟨[Call.addRequest 3 0, Call.pause], rfl⟩, Or.inl rfl⟩,
    moveElevator_noop_when_paused_or_stopped (pause (addRequest initialState 3 0)) 1
      ⟨[Call.addRequest 3 0, Call.pause], rfl⟩ (Or.inl rfl)⟩

/-- C13. RequestSet invariant: in every state reachable from the constructor
state by submissions, ticks, start, pause, reset, policy changes and
reconfigurations, no two pending requests have the same floor and every pending
floor lies between 1 and `totalFloors`. -/
theorem requests_distinct_and_in_range (s : State) (h : Reachable s) :
    (s.requests.map Request.floor).Nodup ∧
      ∀ r ∈ s.requests, 1 ≤ r.floor ∧ r.floor ≤ s.totalFloors :=
  ⟨(coreInv_of_reachable h).nodup, (coreInv_of_reachable h).inRange⟩

/-- Instance of C13: the state after submitting floors 5 and 2. -/
theorem requests_distinct_and_in_range_witness :
    Reachable (addRequest (addRequest initialState 5 0) 2 1) ∧
      ((addRequest (addRequest initialState 5 0) 2 1).requests.map Request.floor).Nodup ∧
      ∀ r ∈ (addRequest (addRequest initialState 5 0) 2 1).requests,
        1 ≤ r.floor ∧ r.floor ≤ (addRequest (addRequest initialState 5 0) 2 1).totalFloors :=
  ⟨⟨[Call.addRequest 5 0, Call.addRequest 2 1], rfl⟩,
    requests_distinct_and_in_range (addRequest (addRequest initialState 5 0) 2 1)
      ⟨[Call.addRequest 5 0, Call.addRequest 2 1], rfl⟩⟩

/-! ## Runs without reconfiguration -/

/-- One step between two floors of the shaft stays in the shaft. -/
lemma stepTowards_range {c t T : Int} (hc : 1 ≤ c ∧ c ≤ T) (ht : 1 ≤ t ∧ t ≤ T) :
    1 ≤ stepTowards c t ∧ stepTowards c t ≤ T := by
  unfold stepTowards
  split
  · omega
  · split <;> omega

/-- The constructor state satisfies the invariant of runs without reconfiguration. -/
lemma shaftInv_initialState : ShaftInv initialState :=
  { floorInRange := by decide
    inRange := fun r hr => absurd hr (List.not_mem_nil r)
    targetPending := fun _ h => Option.noConfusion h }

/-- A submission keeps the invariant of runs without reconfiguration. -/
lemma shaftInv_addRequest {s : State} (h : ShaftInv s) (floor : Int) (now : Nat) :
    ShaftInv (addRequest s floor now) := by
  by_cases hrej : floor < 1 ∨ floor > s.totalFloors ∨ ∃ r ∈ s.requests, r.floor = floor
  · rw [addRequest_of_rejected s floor now hrej]
    exact h
  · have h1 : 1 ≤ floor := by
      by_contra hc
      exact hrej (Or.inl (by omega))
    have h2 : floor ≤ s.totalFloors := by
      by_contra hc
      exact hrej (Or.inr (Or.inl (by omega)))
    have h3 : ∀ r ∈ s.requests, r.floor ≠ floor := by
      intro r hr hf
      exact hrej (Or.inr (Or.inr ⟨r, hr, hf⟩))
    obtain ⟨hreq, htot, hcf, htar, -⟩ := addRequest_accepted_frame s floor now h1 h2 h3
    refine ⟨?_, ?_, ?_⟩
    · rw [hcf, htot]
      exact h.floorInRange
    · intro r hr
      rw [hreq] at hr
      rw [htot]
      rcases List.mem_append.mp hr with hr | hr
      · exact h.inRange r hr
      · rw [List.mem_singleton.mp hr]
        exact ⟨h1, h2⟩
    · intro t ht
      rw [htar] at ht
      obtain ⟨r, hr, hrt⟩ := h.targetPending t ht
      exact ⟨r, by rw [hreq]; exact List.mem_append_left _ hr, hrt⟩

/-- A tick keeps the invariant of runs without reconfiguration. -/
lemma shaftInv_moveElevator {s s2 : State} (h : ShaftInv s) (now : Nat)
    (hres : moveElevator s now = Except.ok s2) : ShaftInv s2 := by
  obtain ⟨hcf, htot, -, -, -, htar, hsub, -⟩ := arrive_frame s now
  have hin : ∀ r ∈ (arrive s now).requests, 1 ≤ r.floor ∧ r.floor ≤ s.totalFloors :=
    fun r hr => h.inRange r (hsub r hr)
  rcases moveElevator_cases s now with
    ⟨-, he⟩ | ⟨-, t, ht, -, he⟩ | ⟨-, -, hnil, he⟩ | ⟨-, -, x, hx, he⟩
  · rw [he] at hres
    injection hres with hres
    rw [← hres]
    exact h
  · rw [he] at hres
    injection hres with hres
    rw [← hres]
    obtain ⟨r, hr, hrt⟩ := h.targetPending t ht
    have htr : 1 ≤ t ∧ t ≤ s.totalFloors := by
      rw [← hrt]
      exact h.inRange r hr
    exact ⟨stepTowards_range h.floorInRange htr, h.inRange, h.targetPending⟩
  · rw [he] at hres
    injection hres with hres
    rw [← hres]
    refine ⟨?_, fun r hr => by rw [htot]; exact hin r hr, ?_⟩
    · show 1 ≤ (arrive s now).currentFloor ∧ (arrive s now).currentFloor ≤ (arrive s now).totalFloors
      rw [hcf, htot]
      exact h.floorInRange
    · intro t ht
      have ht2 : (arrive s now).targetFloor = some t := ht
      rw [htar] at ht2
      exact Option.noConfusion ht2
  · rw [he] at hres
    injection hres with hres
    rw [← hres]
    refine ⟨?_, fun r hr => by rw [htot]; exact hin r hr, ?_⟩
    · show 1 ≤ stepTowards (arrive s now).currentFloor x.floor ∧
        stepTowards (arrive s now).currentFloor x.floor ≤ (arrive s now).totalFloors
      rw [hcf, htot]
      exact stepTowards_range h.floorInRange (hin x hx)
    · intro t ht
      have ht2 : some x.floor = some t := ht
      injection ht2 with ht2
      exact ⟨x, hx, ht2⟩

/-- Every call that is not a reconfiguration keeps the invariant. -/
lemma shaftInv_step (s : State) (c : Call) (s2 : State) (h : ShaftInv s)
    (hc : Call.isReconfiguration c = false) (hst : step s c = Except.ok s2) : ShaftInv s2 := by
  cases c with
  | addRequest floor now =>
    have hst2 : Except.ok (addRequest s floor now) = Except.ok s2 := hst
    injection hst2 with hst2
    rw [← hst2]
    exact shaftInv_addRequest h floor now
  | tick now => exact shaftInv_moveElevator h now hst
  | start =>
    have hst2 : Except.ok (start s) = Except.ok s2 := hst
    injection hst2 with hst2
    rw [← hst2]
    unfold start
    split
    · exact h
    · exact ⟨h.floorInRange, h.inRange, h.targetPending⟩
  | pause =>
    have hst2 : Except.ok (pause s) = Except.ok s2 := hst
    injection hst2 with hst2
    rw [← hst2]
    exact ⟨h.floorInRange, h.inRange, h.targetPending⟩
  | reset =>
    have hst2 : Except.ok (reset s) = Except.ok s2 := hst
    injection hst2 with hst2
    rw [← hst2]
    refine ⟨⟨le_refl _, ?_⟩, fun r hr => absurd hr (List.not_mem_nil r),
      fun _ hc => Option.noConfusion hc⟩
    show (1 : Int) ≤ s.totalFloors
    have := h.floorInRange
    omega
  | selectAlgorithm value =>
    have hst2 : Except.ok ({ s with algorithm := value } : State) = Except.ok s2 := hst
    injection hst2 with hst2
    rw [← hst2]
    exact ⟨h.floorInRange, h.inRange, h.targetPending⟩
  | applyBasicSettings => exact absurd hc (by decide)
  | applyAdvancedSettings a b => exact absurd hc (by simp [Call.isReconfiguration])

/-- Every state reached without reconfiguration satisfies the invariant. -/
lemma shaftInv_of_reachableFixed {s : State} (h : ReachableFixed s) : ShaftInv s := by
  obtain ⟨calls, hall, hrun⟩ := h
  exact run_preserves ShaftInv (fun c => Call.isReconfiguration c = false) shaftInv_step
    calls initialState s shaftInv_initialState hall hrun

/-- C20. With the floor count left alone the car stays in the shaft and its
target stays pending: in every state reachable from the constructor state by
submissions, ticks, start, pause, reset and policy changes (no
reconfiguration), `currentFloor` lies between 1 and `totalFloors` and, whenever
`targetFloor` is set, it lies between 1 and `totalFloors` and a request for it
is pending. -/
theorem car_in_shaft_and_target_pending (s : State) (h : ReachableFixed s) :
    1 ≤ s.currentFloor ∧ s.currentFloor ≤ s.totalFloors ∧
      ∀ t, s.targetFloor = some t →
        1 ≤ t ∧ t ≤ s.totalFloors ∧ ∃ r ∈ s.requests, r.floor = t := by
  have hinv := shaftInv_of_reachableFixed h
  refine ⟨hinv.floorInRange.1, hinv.floorInRange.2, ?_⟩
  intro t ht
  obtain ⟨r, hr, hrt⟩ := hinv.targetPending t ht
  have hrange := hinv.inRange r hr
  rw [hrt] at hrange
  exact ⟨hrange.1, hrange.2, r, hr, hrt⟩

/-- Instance of C20: the state after submitting floor 5. -/
theorem car_in_shaft_and_target_pending_witness :
    ReachableFixed (addRequest initialState 5 0) ∧
      1 ≤ (addRequest initialState 5 0).currentFloor ∧
      (addRequest initialState 5 0).currentFloor ≤ (addRequest initialState 5 0).totalFloors ∧
      ∀ t, (addRequest initialState 5 0).targetFloor = some t →
        1 ≤ t ∧ t ≤ (addRequest initialState 5 0).totalFloors ∧
          ∃ r ∈ (addRequest initialState 5 0).requests, r.floor = t :=
  ⟨⟨[Call.addRequest 5 0], by decide, rfl⟩,
    car_in_shaft_and_target_pending (addRequest initialState 5 0)
      ⟨[Call.addRequest 5 0], by decide, rfl⟩⟩

/-! ## Reconfiguration under a target -/

/-- C14, the code at the failing input: floor 9 is requested and targeted in a
ten-floor shaft, the shaft is cut to five floors, and four ticks later the car
is at floor 6 of 5, still heading for floor 9. The state is reachable and
violates `currentFloor ≤ totalFloors`. -/
theorem car_leaves_shaft_after_cut :
    ∃ s, run initialState cutBelowTargetThenTick = Except.ok s ∧ Reachable s ∧
      s.currentFloor = 6 ∧ s.totalFloors = 5 ∧ s.targetFloor = some 9 ∧
      ¬ s.currentFloor ≤ s.totalFloors :=
  ⟨_, rfl, ⟨cutBelowTargetThenTick, rfl⟩, rfl, rfl, rfl, by decide⟩

/-- C15, the code at the failing input: floor 9 is requested and targeted in a
ten-floor shaft and the shaft is cut to five floors; the request for floor 9 is
pruned but `targetFloor` is still 9, so the target is not pending. -/
theorem target_not_pending_after_cut :
    ∃ s, run initialState cutBelowTarget = Except.ok s ∧ Reachable s ∧
      s.targetFloor = some 9 ∧ s.requests = [] ∧
      ¬ ∃ r ∈ s.requests, r.floor = 9 :=
  ⟨_, rfl, ⟨cutBelowTarget, rfl⟩, rfl, rfl, by decide⟩

/-- C16, the code at the failing input: the car rests at floor 8, floor 8 is
requested again and targeted on the spot (direction `IDLE`), and the shaft is
cut to five floors; the car is clamped to floor 5 while `targetFloor` is still
8 and `direction` is still `IDLE`. -/
theorem idle_with_target_elsewhere_after_cut :
    ∃ s, run initialState cutBelowIdleCar = Except.ok s ∧ Reachable s ∧
      s.direction = Direction.IDLE ∧ s.targetFloor = some 8 ∧ s.currentFloor = 5 ∧
      ¬ (s.targetFloor = none ∨ s.targetFloor = some s.currentFloor) :=
  ⟨_, rfl, ⟨cutBelowIdleCar, rfl⟩, rfl, rfl, rfl, by decide⟩

/-! ## Coming to rest -/

lemma ticksLeft_some (s : State) (t : Int) (h : s.targetFloor = some t) :
    ticksLeft s =
      (t - s.currentFloor).natAbs + 1 + (s.requests.length - 1) * s.totalFloors.toNat := by
  unfold ticksLeft
  split
  · rename_i t2 ht2
    rw [h] at ht2
    injection ht2 with ht2
    rw [ht2]
  · rename_i hnone
    rw [h] at hnone
    exact Option.noConfusion hnone

lemma ticksLeft_none_nil (s : State) (h : s.targetFloor = none) (hreq : s.requests = []) :
    ticksLeft s = if s.isRunning = false ∧ s.direction = Direction.IDLE then 0 else 1 := by
  unfold ticksLeft
  split
  · rename_i t2 ht2
    rw [h] at ht2
    exact Option.noConfusion ht2
  · split
    · rfl
    · rename_i r rs hcons
      rw [hreq] at hcons
      exact List.noConfusion hcons

lemma ticksLeft_none_cons (s : State) (h : s.targetFloor = none) (hreq : s.requests ≠ []) :
    ticksLeft s = s.requests.length * s.totalFloors.toNat + 1 := by
  unfold ticksLeft
  split
  · rename_i t2 ht2
    rw [h] at ht2
    exact Option.noConfusion ht2
  · split
    · rename_i hnil
      exact absurd hnil hreq
    · rename_i r rs hcons
      rw [hcons]
      rfl

/-- One step towards a floor of the shaft, counted in floors: the distance left
plus one is at most the height of the shaft, and it is one less than before
when the floor is not reached yet. -/
lemma stepTowards_natAbs {c t T : Int} (hc : 1 ≤ c ∧ c ≤ T) (ht : 1 ≤ t ∧ t ≤ T) :
    (t - stepTowards c t).natAbs + 1 ≤ T.toNat ∧
      (t ≠ c → (t - stepTowards c t).natAbs + 1 = (t - c).natAbs) := by
  unfold stepTowards
  split
  · omega
  · split <;> omega

/-- A state with nothing left to do is at rest. -/
lemma idle_of_ticksLeft_zero {s : State} (hz : ticksLeft s = 0) : Idle s := by
  cases ht : s.targetFloor with
  | some t =>
    rw [ticksLeft_some s t ht] at hz
    omega
  | none =>
    by_cases hreq : s.requests = []
    · rw [ticksLeft_none_nil s ht hreq] at hz
      by_cases hc : s.isRunning = false ∧ s.direction = Direction.IDLE
      · exact ⟨hreq, ht, hc.2, hc.1⟩
      · rw [if_neg hc] at hz
        exact absurd hz (by decide)
    · rw [ticksLeft_none_cons s ht hreq] at hz
      omega

/-- The waiting time is at most `(n + 1) * totalFloors` for `n` pending requests. -/
lemma ticksLeft_le {s : State} (h : ShaftInv s) :
    ticksLeft s ≤ (s.requests.length + 1) * s.totalFloors.toNat := by
  have hcf := h.floorInRange
  have hK : 1 ≤ s.totalFloors.toNat := by omega
  have hmul : (s.requests.length + 1) * s.totalFloors.toNat =
      s.requests.length * s.totalFloors.toNat + s.totalFloors.toNat := Nat.succ_mul _ _
  cases ht : s.targetFloor with
  | some t =>
    obtain ⟨r, hr, hrt⟩ := h.targetPending t ht
    have htr := h.inRange r hr
    rw [hrt] at htr
    have hle : (s.requests.length - 1) * s.totalFloors.toNat ≤
        s.requests.length * s.totalFloors.toNat :=
      Nat.mul_le_mul_right _ (Nat.sub_le _ _)
    rw [ticksLeft_some s t ht, hmul]
    omega
  | none =>
    by_cases hreq : s.requests = []
    · rw [ticksLeft_none_nil s ht hreq, hmul]
      split <;> omega
    · rw [ticksLeft_none_cons s ht hreq, hmul]
      omega

/-- An unpaused tick keeps the car unpaused and uses up one unit of waiting time. -/
lemma moveElevator_ticksLeft {s : State} (h : ShaftInv s) (hp : s.isPaused = false)
    (now : Nat) :
    ∃ s2, moveElevator s now = Except.ok s2 ∧ ShaftInv s2 ∧ s2.isPaused = false ∧
      ticksLeft s2 ≤ ticksLeft s - 1 := by
  obtain ⟨hcf, htot, -, hpau, -, htar, hsub, hsame⟩ := arrive_frame s now
  have hrange := h.floorInRange
  rcases moveElevator_cases s now with
    ⟨hp2, -⟩ | ⟨-, t, ht, hne, he⟩ | ⟨-, -, hnil, he⟩ | ⟨-, hcond, x, hx, he⟩
  · rw [hp] at hp2
    exact Bool.noConfusion hp2
  · refine ⟨_, he, shaftInv_moveElevator h now he, hp, ?_⟩
    obtain ⟨r, hr, hrt⟩ := h.targetPending t ht
    have htr := h.inRange r hr
    rw [hrt] at htr
    have hstep := (stepTowards_natAbs hrange htr).2 hne
    have e : ticksLeft ({ s with currentFloor := stepTowards s.currentFloor t } : State) =
        (t - stepTowards s.currentFloor t).natAbs + 1 +
          (s.requests.length - 1) * s.totalFloors.toNat := ticksLeft_some _ t ht
    rw [e, ticksLeft_some s t ht]
    omega
  · refine ⟨_, he, shaftInv_moveElevator h now he, ?_, ?_⟩
    · show (arrive s now).isPaused = false
      rw [hpau]
      exact hp
    · have e := ticksLeft_none_nil
        ({ arrive s now with direction := Direction.IDLE, isRunning := false } : State) htar hnil
      rw [if_pos ⟨rfl, rfl⟩] at e
      rw [e]
      exact Nat.zero_le _
  · refine ⟨_, he, shaftInv_moveElevator h now he, ?_, ?_⟩
    · show (arrive s now).isPaused = false
      rw [hpau]
      exact hp
    · have hxr := h.inRange x (hsub x hx)
      have hstep := (stepTowards_natAbs hrange hxr).1
      have hpos : 1 ≤ (arrive s now).requests.length :=
        List.length_pos_of_mem hx
      have hmul : ((arrive s now).requests.length - 1 + 1) * s.totalFloors.toNat =
          ((arrive s now).requests.length - 1) * s.totalFloors.toNat + s.totalFloors.toNat :=
        Nat.succ_mul _ _
      rw [Nat.sub_add_cancel hpos] at hmul
      have e : ticksLeft ({ arrive s now with
            targetFloor := some x.floor
            direction := directionTo (arrive s now) x.floor
            currentFloor := stepTowards (arrive s now).currentFloor x.floor } : State) =
          (x.floor - stepTowards (arrive s now).currentFloor x.floor).natAbs + 1 +
            ((arrive s now).requests.length - 1) * (arrive s now).totalFloors.toNat :=
        ticksLeft_some _ x.floor rfl
      rw [e, hcf, htot]
      rcases hcond with hnone | hsome
      · have hne : s.requests ≠ [] := by
          rw [hsame hnone] at hx
          exact List.ne_nil_of_mem hx
        rw [hsame hnone] at hmul ⊢
        rw [ticksLeft_none_cons s hnone hne]
        omega
      · obtain ⟨r, hr, hrt⟩ := h.targetPending s.currentFloor hsome
        have hlt : (arrive s now).requests.length < s.requests.length := by
          rw [arrive_of_some s now s.currentFloor hsome]
          show (s.requests.filter (fun q => decide (q.floor ≠ s.currentFloor))).length <
            s.requests.length
          rw [List.length_filter_lt_length_iff_exists]
          exact ⟨r, hr, by simp [hrt]⟩
        have hle : (arrive s now).requests.length * s.totalFloors.toNat ≤
            (s.requests.length - 1) * s.totalFloors.toNat :=
          Nat.mul_le_mul_right _ (by omega)
        rw [ticksLeft_some s s.currentFloor hsome]
        omega

/-- Enough ticks bring an unpaused car to rest. -/
lemma ticks_reach_idle (times : List Nat) :
    ∀ s : State, ShaftInv s → s.isPaused = false → ticksLeft s ≤ times.length →
      ∃ s2, run s (ticksAt times) = Except.ok s2 ∧ Idle s2 := by
  induction times with
  | nil =>
    intro s _ _ hlen
    exact ⟨s, rfl, idle_of_ticksLeft_zero (Nat.le_zero.mp hlen)⟩
  | cons now rest ih =>
    intro s h hp hlen
    obtain ⟨s1, hres, hinv, hp1, hdec⟩ := moveElevator_ticksLeft h hp now
    have hlen2 : ticksLeft s ≤ rest.length + 1 := hlen
    obtain ⟨s2, hrun, hidle⟩ := ih s1 hinv hp1 (by omega)
    refine ⟨s2, ?_, hidle⟩
    show (match moveElevator s now with
      | Except.error e => Except.error e
      | Except.ok s1 => run s1 (ticksAt rest)) = Except.ok s2
    rw [hres]
    exact hrun

/-- C19. Every pending request is eventually served: under any policy, from any
state reached from the constructor state by submissions, ticks, start, pause,
reset and policy changes (no reconfiguration) that is not paused and has `n`
pending requests, ticking with no further submission for `(n + 1) * totalFloors`
ticks, or for any larger number of ticks, does not throw and ends in a state
with no pending request, `targetFloor` unset, `direction = IDLE` and
`isRunning = false`. -/
theorem every_request_eventually_served (s : State) (h : ReachableFixed s)
    (hp : s.isPaused = false) (times : List Nat)
    (hlen : (s.requests.length + 1) * s.totalFloors.toNat ≤ times.length) :
    ∃ s2, run s (ticksAt times) = Except.ok s2 ∧ Idle s2 :=
  ticks_reach_idle times s (shaftInv_of_reachableFixed h) hp
    (le_trans (ticksLeft_le (shaftInv_of_reachableFixed h)) hlen)

/-- Instance of C19: floor 3 submitted under SCAN, then twenty ticks. -/
theorem every_request_eventually_served_witness :
    (ReachableFixed (addRequest { initialState with algorithm := "scan" } 3 0) ∧
        (addRequest { initialState with algorithm := "scan" } 3 0).isPaused = false ∧
        ((addRequest { initialState with algorithm := "scan" } 3 0).requests.length + 1) *
            (addRequest { initialState with algorithm := "scan" } 3 0).totalFloors.toNat ≤
          (List.range 20).length) ∧
      ∃ s2, run (addRequest { initialState with algorithm := "scan" } 3 0)
          (ticksAt (List.range 20)) = Except.ok s2 ∧ Idle s2 :=
  ⟨⟨⟨[Call.selectAlgorithm "scan", Call.addRequest 3 0], by decide, rfl⟩, rfl, by decide⟩,
    every_request_eventually_served (addRequest { initialState with algorithm := "scan" } 3 0)
      ⟨[Call.selectAlgorithm "scan", Call.addRequest 3 0], by decide, rfl⟩ rfl
      (List.range 20) (by decide)⟩

end ElevatorSimulator
